import Mathlib

/-!
# LevelDB core: Arena allocator and MemTable reference counting

A shallow embedding of `util/arena.h`, `util/arena.cc` and the reference
counting part of `db/memtable.h`, followed by theorems about them.

Conventions of the embedding.

* `size_t` is 64 bits wide: a `size_t` value is a natural number below
  `sizeT = 2 ^ 64` and every `size_t` addition is reduced modulo `sizeT`.
  A subtraction that the code performs only under a guard that keeps it
  non-negative is written as natural-number subtraction.
* A `char*` is the natural number of its address; `nullptr` is `0`.
* `new char[n]` is an oracle `heap : Heap`: `heap k` is the address returned
  by the `k`-th (counting from zero) `new char[...]` executed by the arena.
  Assumptions about the system allocator (alignment, disjointness of the
  blocks it hands out) are explicit hypotheses of the theorems that need them.
* `assert(e)` aborts the call when `e` is false; the outcome records the
  state in which the assertion failed.
* `int refs_` is a 32-bit two's complement integer.
-/

/-! ## Arena -/

/-- The constant `kBlockSize` of `util/arena.cc`. -/
def kBlockSize : Nat := 4096

/-- Number of values of `size_t` (64-bit). -/
def sizeT : Nat := 2 ^ 64

/-- The value of `sizeof(char*)` and `sizeof(void*)`, 8 on a 64-bit target. -/
def ptrSize : Nat := 8

/-- The system allocator: `heap k` is the address returned by the `k`-th
`new char[...]` of an arena. -/
abbrev Heap := Nat → Nat

/-- One entry of `blocks_`: the pointer stored in the vector, together with
the length that was passed to `new char[...]` for it (the vector itself
stores only the pointer; the length is known to the allocator). -/
structure Block where
  start : Nat
  size : Nat
deriving DecidableEq, Repr

/-- The data members of `class Arena`. -/
structure Arena where
  alloc_ptr_ : Nat
  alloc_bytes_remaining_ : Nat
  blocks_ : List Block
  memory_usage_ : Nat
deriving DecidableEq, Repr

/-- The constructor `Arena::Arena()`:
`alloc_ptr_(nullptr), alloc_bytes_remaining_(0), memory_usage_(0)`. -/
def Arena.new : Arena :=
  { alloc_ptr_ := 0, alloc_bytes_remaining_ := 0, blocks_ := [], memory_usage_ := 0 }

/-- The accessor `Arena::MemoryUsage()`. -/
def Arena.MemoryUsage (s : Arena) : Nat :=
  s.memory_usage_

/-- Result of a public allocation call. -/
inductive Outcome where
  /-- The call returned `result`, leaving the arena in state `s`. -/
  | returned (result : Nat) (s : Arena)
  /-- An `assert` of the call failed while the arena was in state `s`. -/
  | assertFailed (s : Arena)
deriving DecidableEq, Repr

/-- The private method `Arena::AllocateNewBlock(block_bytes)`:
`new char[block_bytes]`, `blocks_.push_back(result)`,
`memory_usage_.fetch_add(block_bytes + sizeof(char*))`. -/
def Arena.AllocateNewBlock (heap : Heap) (s : Arena) (block_bytes : Nat) : Nat × Arena :=
  let result := heap s.blocks_.length
  (result,
    { s with
      blocks_ := s.blocks_ ++ [{ start := result, size := block_bytes }]
      memory_usage_ := (s.memory_usage_ + (block_bytes + ptrSize) % sizeT) % sizeT })

/-- The private method `Arena::AllocateFallback(bytes)`. -/
def Arena.AllocateFallback (heap : Heap) (s : Arena) (bytes : Nat) : Nat × Arena :=
  if bytes > kBlockSize / 4 then
    -- Object is more than a quarter of our block size: allocate it separately.
    Arena.AllocateNewBlock heap s bytes
  else
    -- We waste the remaining space in the current block.
    let nb := Arena.AllocateNewBlock heap s kBlockSize
    let s1 : Arena := { nb.2 with alloc_ptr_ := nb.1, alloc_bytes_remaining_ := kBlockSize }
    let result := s1.alloc_ptr_
    (result,
      { s1 with
        alloc_ptr_ := s1.alloc_ptr_ + bytes
        alloc_bytes_remaining_ := s1.alloc_bytes_remaining_ - bytes })

/-- The inline method `Arena::Allocate(bytes)` of `util/arena.h`. -/
def Arena.Allocate (heap : Heap) (s : Arena) (bytes : Nat) : Outcome :=
  if bytes > 0 then
    if bytes ≤ s.alloc_bytes_remaining_ then
      let result := s.alloc_ptr_
      Outcome.returned result
        { s with
          alloc_ptr_ := s.alloc_ptr_ + bytes
          alloc_bytes_remaining_ := s.alloc_bytes_remaining_ - bytes }
    else
      let fb := Arena.AllocateFallback heap s bytes
      Outcome.returned fb.1 fb.2
  else
    Outcome.assertFailed s

/-- The local constant `align` of `Arena::AllocateAligned`:
`(sizeof(void*) > 8) ? sizeof(void*) : 8`. -/
def align : Nat := if ptrSize > 8 then ptrSize else 8

/-- The body of `Arena::AllocateAligned(bytes)` up to, and excluding, its
final `assert`: the value of `result` and the state reached. -/
def Arena.AllocateAlignedBody (heap : Heap) (s : Arena) (bytes : Nat) : Nat × Arena :=
  let current_mod := s.alloc_ptr_ &&& (align - 1)
  let slop := if current_mod = 0 then 0 else align - current_mod
  let needed := (bytes + slop) % sizeT
  if needed ≤ s.alloc_bytes_remaining_ then
    (s.alloc_ptr_ + slop,
      { s with
        alloc_ptr_ := s.alloc_ptr_ + needed
        alloc_bytes_remaining_ := s.alloc_bytes_remaining_ - needed })
  else
    -- AllocateFallback always returned aligned memory
    Arena.AllocateFallback heap s bytes

/-- The method `Arena::AllocateAligned(bytes)`: the body followed by
`assert((reinterpret_cast<uintptr_t>(result) & (align - 1)) == 0)`. -/
def Arena.AllocateAligned (heap : Heap) (s : Arena) (bytes : Nat) : Outcome :=
  let r := Arena.AllocateAlignedBody heap s bytes
  if r.1 &&& (align - 1) = 0 then Outcome.returned r.1 r.2 else Outcome.assertFailed r.2

/-- A call of one of the two public allocation methods. -/
inductive Call where
  | Allocate (bytes : Nat)
  | AllocateAligned (bytes : Nat)
deriving DecidableEq, Repr

/-- The size requested by a call. -/
def Call.bytes : Call → Nat
  | Call.Allocate n => n
  | Call.AllocateAligned n => n

/-- Executing one call in state `s`. -/
def Call.exec (heap : Heap) (s : Arena) : Call → Outcome
  | Call.Allocate n => Arena.Allocate heap s n
  | Call.AllocateAligned n => Arena.AllocateAligned heap s n

/-- Whether the call `c`, issued in state `s`, reaches the second branch of
`AllocateFallback`, the one that abandons the current block and executes
`alloc_ptr_ = AllocateNewBlock(kBlockSize)`. -/
def Call.startsBlock (s : Arena) : Call → Bool
  | Call.Allocate n =>
      decide (n > 0 ∧ ¬ n ≤ s.alloc_bytes_remaining_ ∧ ¬ n > kBlockSize / 4)
  | Call.AllocateAligned n =>
      let current_mod := s.alloc_ptr_ &&& (align - 1)
      let slop := if current_mod = 0 then 0 else align - current_mod
      decide (¬ (n + slop) % sizeT ≤ s.alloc_bytes_remaining_ ∧ ¬ n > kBlockSize / 4)

/-- A served request: the pointer a call returned and the size asked for,
that is the byte range `[ptr, ptr + bytes)`. -/
structure Served where
  ptr : Nat
  bytes : Nat
deriving DecidableEq, Repr

/-- An arena together with the history of a call sequence executed on it:
the ranges returned so far, in call order, and the block most recently
installed as the current block by `AllocateFallback` (none yet for an arena
that never executed `alloc_ptr_ = AllocateNewBlock(kBlockSize)`). -/
structure Run where
  arena : Arena
  served : List Served
  current : Option Block
deriving DecidableEq, Repr

/-- The history of a freshly constructed arena. -/
def Run.init : Run :=
  { arena := Arena.new, served := [], current := none }

/-- The history after the call `c`, issued in the state of `r`, has returned
`p` and left the arena in state `s`. -/
def Run.record (heap : Heap) (r : Run) (c : Call) (p : Nat) (s : Arena) : Run :=
  { arena := s
    served := r.served ++ [{ ptr := p, bytes := c.bytes }]
    current :=
      if c.startsBlock r.arena then
        some { start := heap r.arena.blocks_.length, size := kBlockSize }
      else r.current }

/-- Executing a sequence of calls, one after the other, stopping at the first
failed assertion (`none`). -/
def runCalls (heap : Heap) : Run → List Call → Option Run
  | r, [] => some r
  | r, c :: cs =>
    match c.exec heap r.arena with
    | Outcome.returned p s => runCalls heap (r.record heap c p s) cs
    | Outcome.assertFailed _ => none

/-- The byte range `[b.start, b.start + b.size)` of a block contains the
range `[p, p + n)`. -/
def Block.Contains (b : Block) (p n : Nat) : Prop :=
  b.start ≤ p ∧ p + n ≤ b.start + b.size

/-- The byte ranges `[p, p + n)` and `[q, q + m)` have no byte in common. -/
def RangesDisjoint (p n q m : Nat) : Prop :=
  n = 0 ∨ m = 0 ∨ p + n ≤ q ∨ q + m ≤ p

/-- Two served requests occupy disjoint byte ranges. -/
def Served.Disjoint (a b : Served) : Prop :=
  RangesDisjoint a.ptr a.bytes b.ptr b.bytes

/-- Every two distinct blocks of the list occupy disjoint byte ranges: each
block obtained from the system is disjoint from all earlier ones. -/
def BlocksDisjoint (bs : List Block) : Prop :=
  bs.Pairwise (fun a b => RangesDisjoint a.start a.size b.start b.size)

instance (b : Block) (p n : Nat) : Decidable (b.Contains p n) := by
  unfold Block.Contains; infer_instance

instance (p n q m : Nat) : Decidable (RangesDisjoint p n q m) := by
  unfold RangesDisjoint; infer_instance

instance (a b : Served) : Decidable (a.Disjoint b) := by
  unfold Served.Disjoint; infer_instance

instance (bs : List Block) : Decidable (BlocksDisjoint bs) := by
  unfold BlocksDisjoint; infer_instance

/-- Every block handed out by the system allocator starts at a multiple of 8. -/
def HeapAligned (heap : Heap) : Prop :=
  ∀ k, heap k % 8 = 0

/-- The number of bytes requested from the system for the blocks `bs`,
bookkeeping included: the sum of the block sizes plus `sizeof(char*)` for
each block. -/
def systemBytes (bs : List Block) : Nat :=
  (bs.map (fun b => b.size)).sum + ptrSize * bs.length

/-- Bookkeeping invariant of an arena history: the usage counter is the
number of bytes requested from the system reduced to `size_t`, at most one
standard block remains to be handed out, and the free region
`[alloc_ptr_, alloc_ptr_ + alloc_bytes_remaining_)` ends where the current
block ends. -/
structure Run.Sound (r : Run) : Prop where
  usage : r.arena.memory_usage_ = systemBytes r.arena.blocks_ % sizeT
  remaining_le : r.arena.alloc_bytes_remaining_ ≤ kBlockSize
  cursor :
    match r.current with
    | none => r.arena.alloc_ptr_ = 0 ∧ r.arena.alloc_bytes_remaining_ = 0
    | some b =>
      b ∈ r.arena.blocks_ ∧ b.size = kBlockSize ∧
        r.arena.alloc_ptr_ + r.arena.alloc_bytes_remaining_ = b.start + b.size

/-- Ownership invariant of an arena history: every non-empty range returned
lies inside one owned block, and the bytes handed out or still free were all
requested from the system. -/
structure Run.Owned (r : Run) : Prop where
  inside : ∀ a ∈ r.served, a.bytes = 0 ∨ ∃ b ∈ r.arena.blocks_, b.Contains a.ptr a.bytes
  budget :
    (r.served.map (fun a => a.bytes)).sum + r.arena.alloc_bytes_remaining_
      ≤ systemBytes r.arena.blocks_

/-- Separation invariant of an arena history: the ranges returned are
disjoint from the free region and from one another. -/
structure Run.Separated (r : Run) : Prop where
  free : ∀ a ∈ r.served,
    RangesDisjoint a.ptr a.bytes r.arena.alloc_ptr_ r.arena.alloc_bytes_remaining_
  apart : r.served.Pairwise Served.Disjoint

/-- A sample system allocator: block `k` is placed at `65536 * (k + 1)`. -/
def sampleHeap : Heap := fun k => 65536 * (k + 1)

/-- A sample call sequence, exercising the three ways a call is served. -/
def sampleCalls : List Call :=
  [Call.Allocate 10, Call.AllocateAligned 16, Call.Allocate 2000, Call.AllocateAligned 0,
    Call.Allocate 4000, Call.Allocate 100]

/-- The history of `sampleCalls` executed on a fresh arena over `sampleHeap`. -/
def sampleRun : Run :=
  { arena :=
      { alloc_ptr_ := 67668
        alloc_bytes_remaining_ := 1964
        blocks_ := [{ start := 65536, size := 4096 }, { start := 131072, size := 4000 }]
        memory_usage_ := 8112 }
    served :=
      [{ ptr := 65536, bytes := 10 }, { ptr := 65552, bytes := 16 },
        { ptr := 65568, bytes := 2000 }, { ptr := 67568, bytes := 0 },
        { ptr := 131072, bytes := 4000 }, { ptr := 67568, bytes := 100 }]
    current := some { start := 65536, size := 4096 } }

/-- The arena state in which a call ended. -/
def Outcome.state : Outcome → Arena
  | Outcome.returned _ s => s
  | Outcome.assertFailed s => s

/-! ## MemTable reference counting -/

/-- Reduction of an integer to the range of a 32-bit two's complement `int`. -/
def wrapInt (x : Int) : Int :=
  (x + 2147483648) % 4294967296 - 2147483648

/-- The data member `refs_` of `class MemTable` (the comparator, the arena
and the skip list play no part in reference counting). -/
structure MemTable where
  refs_ : Int
deriving DecidableEq, Repr

/-- Modelled from the spec: the constructor `MemTable::MemTable`, defined in
`db/memtable.cc`; the header documents that the initial reference count is
zero. -/
def MemTable.new : MemTable :=
  { refs_ := 0 }

/-- The method `MemTable::Ref()`: `++refs_`. -/
def MemTable.Ref (m : MemTable) : MemTable :=
  { refs_ := wrapInt (m.refs_ + 1) }

/-- How a call of `Unref()` ends. -/
inductive UnrefResult where
  /-- The call returned and the object is still alive. -/
  | alive (m : MemTable)
  /-- The call executed `delete this`. -/
  | deleted
  /-- The assertion `refs_ >= 0` failed, with the count already decremented. -/
  | assertFailed (m : MemTable)
deriving DecidableEq, Repr

/-- The method `MemTable::Unref()`:
`--refs_; assert(refs_ >= 0); if (refs_ <= 0) delete this`. -/
def MemTable.Unref (m : MemTable) : UnrefResult :=
  let m1 : MemTable := { refs_ := wrapInt (m.refs_ - 1) }
  if m1.refs_ ≥ 0 then
    if m1.refs_ ≤ 0 then UnrefResult.deleted else UnrefResult.alive m1
  else
    UnrefResult.assertFailed m1

/-- A reference counting call. -/
inductive RefOp where
  | Ref
  | Unref
deriving DecidableEq, Repr

/-- What has become of a MemTable after a sequence of calls. -/
inductive Life where
  /-- No call has destroyed the object; its members are `m`. -/
  | alive (m : MemTable)
  /-- The call with index `i` (counting from zero) executed `delete this`. -/
  | destroyedBy (i : Nat)
  /-- The call with index `i` failed its assertion. -/
  | assertFailedAt (i : Nat)
deriving DecidableEq, Repr

/-- Executing the calls `ops` on the live object `m`, the first of them having
index `i`. Execution stops at the call that destroys the object or fails an
assertion: a later call would act on an object that no longer exists. -/
def lifecycleFrom : MemTable → Nat → List RefOp → Life
  | m, _, [] => Life.alive m
  | m, i, RefOp.Ref :: ops => lifecycleFrom m.Ref (i + 1) ops
  | m, i, RefOp.Unref :: ops =>
    match m.Unref with
    | UnrefResult.alive m1 => lifecycleFrom m1 (i + 1) ops
    | UnrefResult.deleted => Life.destroyedBy i
    | UnrefResult.assertFailed _ => Life.assertFailedAt i

/-- Executing the calls `ops` on a freshly constructed MemTable. -/
def lifecycle (ops : List RefOp) : Life :=
  lifecycleFrom MemTable.new 0 ops

/-- The reference count a sequence of calls amounts to: the number of
`Ref()` calls minus the number of `Unref()` calls. -/
def refCount : List RefOp → Int
  | [] => 0
  | RefOp.Ref :: ops => refCount ops + 1
  | RefOp.Unref :: ops => refCount ops - 1

/-! ## Arithmetic of the embedding -/

theorem and_align_eq_mod (x : Nat) : x &&& (align - 1) = x % 8 := by
  have h : align - 1 = 2 ^ 3 - 1 := by decide
  rw [h, Nat.and_pow_two_sub_one_eq_mod]

theorem slop_facts (p : Nat) :
    (if p % 8 = 0 then 0 else 8 - p % 8) ≤ 7 ∧
      (p + (if p % 8 = 0 then 0 else 8 - p % 8)) % 8 = 0 := by
  split_ifs <;> omega

/-- The three ways a call can be served: from the current block, by a
dedicated block, or from a fresh standard block. -/
theorem exec_cases (heap : Heap) (s : Arena) (c : Call) (p : Nat) (s' : Arena)
    (h : c.exec heap s = Outcome.returned p s') :
    (∃ slop needed, slop ≤ 7 ∧
        (c = Call.AllocateAligned c.bytes →
          (s.alloc_ptr_ + slop) % 8 = 0 ∧ needed = (c.bytes + slop) % sizeT) ∧
        (c = Call.Allocate c.bytes → slop = 0 ∧ needed = c.bytes) ∧
        (c.bytes + slop < sizeT → needed = c.bytes + slop) ∧
        c.startsBlock s = false ∧
        needed ≤ s.alloc_bytes_remaining_ ∧
        p = s.alloc_ptr_ + slop ∧
        s'.alloc_ptr_ = s.alloc_ptr_ + needed ∧
        s'.alloc_bytes_remaining_ = s.alloc_bytes_remaining_ - needed ∧
        s'.blocks_ = s.blocks_ ∧ s'.memory_usage_ = s.memory_usage_)
    ∨ (c.startsBlock s = false ∧ c.bytes > kBlockSize / 4 ∧
        p = heap s.blocks_.length ∧
        s'.alloc_ptr_ = s.alloc_ptr_ ∧
        s'.alloc_bytes_remaining_ = s.alloc_bytes_remaining_ ∧
        s'.blocks_ = s.blocks_ ++ [{ start := heap s.blocks_.length, size := c.bytes }] ∧
        s'.memory_usage_ = (s.memory_usage_ + (c.bytes + ptrSize) % sizeT) % sizeT)
    ∨ (c.startsBlock s = true ∧ c.bytes ≤ kBlockSize / 4 ∧
        p = heap s.blocks_.length ∧
        s'.alloc_ptr_ = heap s.blocks_.length + c.bytes ∧
        s'.alloc_bytes_remaining_ = kBlockSize - c.bytes ∧
        s'.blocks_ = s.blocks_ ++ [{ start := heap s.blocks_.length, size := kBlockSize }] ∧
        s'.memory_usage_ = (s.memory_usage_ + (kBlockSize + ptrSize) % sizeT) % sizeT) := by
  cases c with
  | Allocate n =>
    simp only [Call.exec, Arena.Allocate] at h
    simp only [Call.bytes, Call.startsBlock]
    split_ifs at h with h0 h1
    · left
      simp only [Outcome.returned.injEq] at h
      obtain ⟨rfl, rfl⟩ := h
      exact ⟨0, n, by omega, by simp, by simp, by simp, by simp [h1], h1, by simp⟩
    · simp only [Arena.AllocateFallback, Arena.AllocateNewBlock] at h
      split_ifs at h with h2
      · right; left
        simp only [Outcome.returned.injEq] at h
        obtain ⟨rfl, rfl⟩ := h
        simp [h1, h2]
      · right; right
        simp only [Outcome.returned.injEq] at h
        obtain ⟨rfl, rfl⟩ := h
        simp [h0, h1, h2]
        omega
  | AllocateAligned n =>
    simp only [Call.exec, Arena.AllocateAligned, Arena.AllocateAlignedBody,
      and_align_eq_mod] at h
    simp only [Call.bytes, Call.startsBlock, and_align_eq_mod]
    have hal : align = 8 := by decide
    rw [hal] at h ⊢
    obtain ⟨hs7, hs0⟩ := slop_facts s.alloc_ptr_
    generalize (if s.alloc_ptr_ % 8 = 0 then 0 else 8 - s.alloc_ptr_ % 8) = slop at h hs7 hs0 ⊢
    split_ifs at h with h1 h2
    · left
      simp only [Outcome.returned.injEq] at h
      obtain ⟨rfl, rfl⟩ := h
      refine ⟨slop, (n + slop) % sizeT, hs7, by simp [hs0], by simp, ?_, by simp [h1], h1, by simp⟩
      intro hlt
      exact Nat.mod_eq_of_lt hlt
    · simp only [Arena.AllocateFallback, Arena.AllocateNewBlock] at h
      split_ifs at h with h3
      · right; left
        simp only [Outcome.returned.injEq] at h
        obtain ⟨rfl, rfl⟩ := h
        simp [h2, h3]
      · right; right
        simp only [Outcome.returned.injEq] at h
        obtain ⟨rfl, rfl⟩ := h
        simp [h2, h3]
        omega

/-! ## MemTable reference counting: lemmas -/

theorem wrapInt_of_range (x : Int) (h0 : -2147483648 ≤ x) (h1 : x < 2147483648) :
    wrapInt x = x := by
  unfold wrapInt
  omega

theorem refCount_take_succ (ops : List RefOp) :
    ∀ j, refCount (ops.take (j + 1)) =
      refCount (ops.take j) +
        (if ops[j]? = some RefOp.Ref then 1
          else if ops[j]? = some RefOp.Unref then -1 else 0) := by
  induction ops with
  | nil => intro j; simp [refCount]
  | cons op rest ih =>
    intro j
    cases j with
    | zero => cases op <;> simp [refCount]
    | succ j =>
      have := ih j
      cases op <;> simp only [List.take_succ_cons, refCount, List.getElem?_cons_succ] <;> omega

/-- A sequence of calls in which every `Unref()` leaves a count of at least
one, and the count never exceeds `INT_MAX`, does not destroy the object, and
ends with the count it amounts to. -/
theorem lifecycleFrom_alive (ops : List RefOp) :
    ∀ (m : MemTable) (i : Nat), 0 ≤ m.refs_ →
      (∀ j, m.refs_ + refCount (ops.take j) ≤ 2147483647) →
      (∀ j, ops[j]? = some RefOp.Unref → 1 ≤ m.refs_ + refCount (ops.take (j + 1))) →
      lifecycleFrom m i ops = Life.alive { refs_ := m.refs_ + refCount ops } := by
  induction ops with
  | nil => intro m i _ _ _; simp [lifecycleFrom, refCount]
  | cons op rest ih =>
    intro m i h0 hmax H
    cases op with
    | Ref =>
      have hm1 := hmax 1
      simp only [List.take_succ_cons, List.take_zero, refCount] at hm1
      have hw : wrapInt (m.refs_ + 1) = m.refs_ + 1 :=
        wrapInt_of_range _ (by omega) (by omega)
      simp only [lifecycleFrom, MemTable.Ref, hw, refCount]
      rw [ih { refs_ := m.refs_ + 1 } (i + 1) (by simp only; omega)]
      · simp only [Life.alive.injEq, MemTable.mk.injEq]; omega
      · intro j
        have := hmax (j + 1)
        simp only [List.take_succ_cons, refCount] at this
        simp only
        omega
      · intro j hj
        have := H (j + 1) (by simpa using hj)
        simp only [List.take_succ_cons, refCount] at this
        simp only
        omega
    | Unref =>
      have hH0 := H 0 (by simp)
      have hm0 := hmax 0
      simp only [List.take_succ_cons, List.take_zero, refCount] at hH0 hm0
      have hw : wrapInt (m.refs_ - 1) = m.refs_ - 1 :=
        wrapInt_of_range _ (by omega) (by omega)
      have hge : m.refs_ - 1 ≥ 0 := by omega
      have hnle : ¬ m.refs_ - 1 ≤ 0 := by omega
      simp only [lifecycleFrom, MemTable.Unref, hw, refCount, hge, hnle, if_true, if_false]
      rw [ih { refs_ := m.refs_ - 1 } (i + 1) (by simp only; omega)]
      · simp only [Life.alive.injEq, MemTable.mk.injEq]; omega
      · intro j
        have := hmax (j + 1)
        simp only [List.take_succ_cons, refCount] at this
        simp only
        omega
      · intro j hj
        have := H (j + 1) (by simpa using hj)
        simp only [List.take_succ_cons, refCount] at this
        simp only
        omega

theorem lifecycleFrom_append (a b : List RefOp) :
    ∀ (m m1 : MemTable) (i : Nat), lifecycleFrom m i a = Life.alive m1 →
      lifecycleFrom m i (a ++ b) = lifecycleFrom m1 (i + a.length) b := by
  induction a with
  | nil =>
    intro m m1 i h
    simp only [lifecycleFrom, Life.alive.injEq] at h
    simp [h]
  | cons op rest ih =>
    intro m m1 i h
    cases op with
    | Ref =>
      rw [List.cons_append]
      simp only [lifecycleFrom] at h ⊢
      rw [ih _ _ _ h]
      simp only [List.length_cons]
      congr 1
      omega
    | Unref =>
      rw [List.cons_append]
      simp only [lifecycleFrom] at h ⊢
      cases hu : m.Unref with
      | alive m2 =>
        rw [hu] at h
        simp only at h ⊢
        rw [ih _ _ _ h]
        simp only [List.length_cons]
        congr 1
        omega
      | deleted => rw [hu] at h; simp at h
      | assertFailed m2 => rw [hu] at h; simp at h

theorem lifecycle_take_alive (ops : List RefOp)
    (hmax : ∀ i, refCount (ops.take i) ≤ 2147483647)
    (hwell : ∀ i, ops[i]? = some RefOp.Unref → 1 ≤ refCount (ops.take i))
    (j : Nat)
    (hnz : ∀ i < j, ops[i]? = some RefOp.Unref → refCount (ops.take (i + 1)) ≠ 0) :
    lifecycle (ops.take j) = Life.alive { refs_ := refCount (ops.take j) } := by
  have h := lifecycleFrom_alive (ops.take j) MemTable.new 0 (by simp [MemTable.new])
    (by
      intro i
      have := hmax (min i j)
      simp only [MemTable.new, List.take_take]
      omega)
    (by
      intro i hi
      have hij : i < j := by
        by_contra hcon
        have hlt : (ops.take j).length ≤ i := le_trans (List.length_take_le _ _) (by omega)
        rw [List.getElem?_eq_none hlt] at hi
        exact absurd hi (by simp)
      have hi2 : ops[i]? = some RefOp.Unref := by
        rw [List.getElem?_take_of_lt hij] at hi
        exact hi
      have e1 : (ops.take j).take (i + 1) = ops.take (i + 1) := by
        rw [List.take_take]
        congr 1
        omega
      have h1 := hwell i hi2
      have h2 := hnz i hij hi2
      have h3 := refCount_take_succ ops i
      simp only [hi2] at h3
      simp only [MemTable.new, e1]
      simp at h3
      omega)
  simpa [lifecycle, MemTable.new] using h

theorem lifecycleFrom_replicate_Ref (n : Nat) :
    ∀ (m : MemTable) (i : Nat), 0 ≤ m.refs_ → m.refs_ + n ≤ 2147483647 →
      lifecycleFrom m i (List.replicate n RefOp.Ref) = Life.alive { refs_ := m.refs_ + n } := by
  induction n with
  | zero => intro m i _ _; simp [lifecycleFrom]
  | succ n ih =>
    intro m i h0 h1
    have hw : wrapInt (m.refs_ + 1) = m.refs_ + 1 :=
      wrapInt_of_range _ (by omega) (by omega)
    simp only [List.replicate_succ, lifecycleFrom, MemTable.Ref, hw]
    rw [ih _ _ (by simp only; omega) (by simp only; omega)]
    simp only [Life.alive.injEq, MemTable.mk.injEq]
    push_cast
    omega

theorem lifecycleFrom_replicate_Unref (k : Nat) :
    ∀ (m : MemTable) (i : Nat), (k : Int) < m.refs_ → m.refs_ ≤ 2147483647 →
      lifecycleFrom m i (List.replicate k RefOp.Unref) = Life.alive { refs_ := m.refs_ - k } := by
  induction k with
  | zero => intro m i _ _; simp [lifecycleFrom]
  | succ k ih =>
    intro m i h0 h1
    have hw : wrapInt (m.refs_ - 1) = m.refs_ - 1 :=
      wrapInt_of_range _ (by omega) (by omega)
    have hge : m.refs_ - 1 ≥ 0 := by omega
    have hnle : ¬ m.refs_ - 1 ≤ 0 := by omega
    simp only [List.replicate_succ, lifecycleFrom, MemTable.Unref, hw, hge, hnle, if_true,
      if_false]
    rw [ih _ _ (by simp only; omega) (by simp only; omega)]
    simp only [Life.alive.injEq, MemTable.mk.injEq]
    push_cast
    omega

/-! ## MemTable reference counting: main results -/

/-- C3, as stated, fails: after `Ref(), Ref(), Unref(), Unref()` on a fresh
MemTable the object is not alive; the second `Unref()` (call index 3) has
already executed `delete this`, so a third `Unref()` is not the destroying
call. -/
theorem memtable_two_refs_two_unrefs_destroyed :
    lifecycle [RefOp.Ref, RefOp.Ref, RefOp.Unref, RefOp.Unref] = Life.destroyedBy 3 ∧
      (¬ ∃ m, lifecycle [RefOp.Ref, RefOp.Ref, RefOp.Unref, RefOp.Unref] = Life.alive m) ∧
      lifecycle [RefOp.Ref, RefOp.Ref, RefOp.Unref, RefOp.Unref, RefOp.Unref]
        ≠ Life.destroyedBy 4 := by
  refine ⟨by decide, ?_, by decide⟩
  rintro ⟨m, hm⟩
  have h : lifecycle [RefOp.Ref, RefOp.Ref, RefOp.Unref, RefOp.Unref] = Life.destroyedBy 3 := by
    decide
  rw [h] at hm
  exact absurd hm (by simp)

/-- C3, amended: on a fresh MemTable (count 0), after `Ref(), Ref(), Unref()`
the object is alive with count 1, and the second `Unref()` is the call that
destroys it: it brings the count to 0 and executes `delete this`. -/
theorem memtable_two_refs_second_unref_destroys :
    MemTable.new.refs_ = 0 ∧
      lifecycle [RefOp.Ref, RefOp.Ref] = Life.alive { refs_ := 2 } ∧
      lifecycle [RefOp.Ref, RefOp.Ref, RefOp.Unref] = Life.alive { refs_ := 1 } ∧
      MemTable.Unref { refs_ := 1 } = UnrefResult.deleted ∧
      lifecycle [RefOp.Ref, RefOp.Ref, RefOp.Unref, RefOp.Unref] = Life.destroyedBy 3 := by
  decide

/-- C4: for a call sequence on a fresh MemTable in which the count is at
least 1 before each `Unref()` (and short enough for the count to fit `int`),
the call that destroys the object is exactly the first `Unref()` after which
the count is 0: every shorter run leaves the object alive with the count the
calls amount to. In particular after `n ≥ 1` calls of `Ref()` the first
`n - 1` calls of `Unref()` leave it alive and the `n`-th destroys it. -/
theorem memtable_destroyed_at_first_zero :
    (∀ (ops : List RefOp) (k : Nat),
      (∀ i, refCount (ops.take i) ≤ 2147483647) →
      (∀ i, ops[i]? = some RefOp.Unref → 1 ≤ refCount (ops.take i)) →
      ops[k]? = some RefOp.Unref →
      refCount (ops.take (k + 1)) = 0 →
      (∀ j < k, ops[j]? = some RefOp.Unref → refCount (ops.take (j + 1)) ≠ 0) →
      lifecycle ops = Life.destroyedBy k ∧
        ∀ j ≤ k, lifecycle (ops.take j) = Life.alive { refs_ := refCount (ops.take j) }) ∧
    (∀ (ops : List RefOp),
      (∀ i, refCount (ops.take i) ≤ 2147483647) →
      (∀ i, ops[i]? = some RefOp.Unref → 1 ≤ refCount (ops.take i)) →
      (∀ j, ops[j]? = some RefOp.Unref → refCount (ops.take (j + 1)) ≠ 0) →
      lifecycle ops = Life.alive { refs_ := refCount ops }) ∧
    (∀ n : Nat, 1 ≤ n → n ≤ 2147483647 →
      (∀ k < n, lifecycle (List.replicate n RefOp.Ref ++ List.replicate k RefOp.Unref)
          = Life.alive { refs_ := (n : Int) - k }) ∧
        lifecycle (List.replicate n RefOp.Ref ++ List.replicate n RefOp.Unref)
          = Life.destroyedBy (2 * n - 1)) := by
  have part1 : ∀ (ops : List RefOp) (k : Nat),
      (∀ i, refCount (ops.take i) ≤ 2147483647) →
      (∀ i, ops[i]? = some RefOp.Unref → 1 ≤ refCount (ops.take i)) →
      ops[k]? = some RefOp.Unref →
      refCount (ops.take (k + 1)) = 0 →
      (∀ j < k, ops[j]? = some RefOp.Unref → refCount (ops.take (j + 1)) ≠ 0) →
      lifecycle ops = Life.destroyedBy k ∧
        ∀ j ≤ k, lifecycle (ops.take j) = Life.alive { refs_ := refCount (ops.take j) } := by
    intro ops k hmax hwell hk hzero hnz
    have hpre : ∀ j ≤ k, lifecycle (ops.take j)
        = Life.alive { refs_ := refCount (ops.take j) } := fun j hj =>
      lifecycle_take_alive ops hmax hwell j (fun i hi => hnz i (by omega))
    refine ⟨?_, hpre⟩
    have hklt : k < ops.length := by
      by_contra hcon
      rw [List.getElem?_eq_none (by omega)] at hk
      exact absurd hk (by simp)
    have hsplit : ops = ops.take k ++ RefOp.Unref :: ops.drop (k + 1) := by
      have hget : ops[k] = RefOp.Unref := by
        have := List.getElem?_eq_getElem hklt
        rw [this] at hk
        exact Option.some.inj hk
      rw [← hget, ← List.drop_eq_getElem_cons hklt, List.take_append_drop]
    have hone : refCount (ops.take k) = 1 := by
      have h3 := refCount_take_succ ops k
      simp only [hk] at h3
      simp at h3
      omega
    have hk0 := hpre k le_rfl
    rw [hone] at hk0
    unfold lifecycle at hk0 ⊢
    rw [hsplit, lifecycleFrom_append _ _ _ _ _ hk0]
    have hlen : (ops.take k).length = k := by
      rw [List.length_take]; omega
    simp only [lifecycleFrom, hlen, zero_add]
    have : MemTable.Unref { refs_ := 1 } = UnrefResult.deleted := by decide
    rw [this]
  have part2 : ∀ (ops : List RefOp),
      (∀ i, refCount (ops.take i) ≤ 2147483647) →
      (∀ i, ops[i]? = some RefOp.Unref → 1 ≤ refCount (ops.take i)) →
      (∀ j, ops[j]? = some RefOp.Unref → refCount (ops.take (j + 1)) ≠ 0) →
      lifecycle ops = Life.alive { refs_ := refCount ops } := by
    intro ops hmax hwell hnz
    have h := lifecycle_take_alive ops hmax hwell ops.length (fun i _ => hnz i)
    simpa using h
  refine ⟨part1, part2, ?_⟩
  intro n hn1 hn2
  have hrefs : lifecycleFrom MemTable.new 0 (List.replicate n RefOp.Ref)
      = Life.alive { refs_ := n } := by
    have h := lifecycleFrom_replicate_Ref n MemTable.new 0 (by simp [MemTable.new])
      (by simp only [MemTable.new]; omega)
    simpa [MemTable.new] using h
  have hrun : ∀ k < n, lifecycle (List.replicate n RefOp.Ref ++ List.replicate k RefOp.Unref)
      = Life.alive { refs_ := (n : Int) - k } := by
    intro k hk
    unfold lifecycle
    rw [lifecycleFrom_append _ _ _ _ _ hrefs]
    exact lifecycleFrom_replicate_Unref k _ _ (by simp only; omega) (by simp only; omega)
  refine ⟨hrun, ?_⟩
  have hlast := hrun (n - 1) (by omega)
  have hsplit : List.replicate n RefOp.Unref
      = List.replicate (n - 1) RefOp.Unref ++ [RefOp.Unref] := by
    rw [← List.replicate_succ']
    congr 1
    omega
  unfold lifecycle at hlast ⊢
  rw [hsplit, ← List.append_assoc, lifecycleFrom_append _ _ _ _ _ hlast]
  have hcnt : ((n : Int) - ((n - 1 : Nat) : Int)) = 1 := by omega
  rw [hcnt]
  have hlen : 0 + (List.replicate n RefOp.Ref ++ List.replicate (n - 1) RefOp.Unref).length
      = 2 * n - 1 := by
    simp only [List.length_append, List.length_replicate]
    omega
  rw [hlen]
  have : MemTable.Unref { refs_ := 1 } = UnrefResult.deleted := by decide
  simp only [lifecycleFrom, this]

/-- Worked instance: the sequence
`Ref, Ref, Unref, Ref, Unref, Unref` is destroyed by its last call, and
three `Ref()` followed by three `Unref()` by the sixth call. -/
theorem memtable_destroyed_at_first_zero_witness :
    lifecycle [RefOp.Ref, RefOp.Ref, RefOp.Unref, RefOp.Ref, RefOp.Unref, RefOp.Unref]
        = Life.destroyedBy 5 ∧
      lifecycle (List.replicate 3 RefOp.Ref ++ List.replicate 3 RefOp.Unref)
        = Life.destroyedBy (2 * 3 - 1) := by
  refine ⟨(memtable_destroyed_at_first_zero.1
    [RefOp.Ref, RefOp.Ref, RefOp.Unref, RefOp.Ref, RefOp.Unref, RefOp.Unref] 5
    ?_ ?_ (by decide) (by decide) ?_).1,
    (memtable_destroyed_at_first_zero.2.2 3 (by decide) (by decide)).2⟩
  · intro i
    rcases Nat.lt_or_ge i 7 with h | h
    · interval_cases i <;> decide
    · rw [List.take_of_length_le (by simpa using (by omega : 6 ≤ i))]
      decide
  · intro i hi
    have hlt : i < 6 := by
      by_contra hcon
      rw [List.getElem?_eq_none (by simpa using (by omega : 6 ≤ i))] at hi
      exact absurd hi (by simp)
    interval_cases i <;> first | decide | exact absurd hi (by decide)
  · intro j hj hu
    interval_cases j <;> decide

/-! ## Arena: executing call sequences -/

theorem runCalls_cons (heap : Heap) (r r' : Run) (c : Call) (cs : List Call) :
    runCalls heap r (c :: cs) = some r' ↔
      ∃ p s, c.exec heap r.arena = Outcome.returned p s ∧
        runCalls heap (r.record heap c p s) cs = some r' := by
  simp only [runCalls]
  cases h : c.exec heap r.arena with
  | returned p s =>
    simp only [Outcome.returned.injEq]
    constructor
    · intro h2
      exact ⟨p, s, ⟨rfl, rfl⟩, h2⟩
    · rintro ⟨p1, s1, ⟨rfl, rfl⟩, h2⟩
      exact h2
  | assertFailed s => simp

/-- Invariant rule for call sequences: a property of histories that every
successful call preserves, for calls satisfying `Q`, holds after a sequence
of such calls if it holds before. -/
theorem runCalls_invariant (heap : Heap) (Q : Call → Prop) (P : Run → Prop)
    (hstep : ∀ r c p s, P r → Q c → c.exec heap r.arena = Outcome.returned p s →
      P (r.record heap c p s)) :
    ∀ (calls : List Call) (r r' : Run), (∀ c ∈ calls, Q c) → P r →
      runCalls heap r calls = some r' → P r' := by
  intro calls
  induction calls with
  | nil =>
    intro r r' _ hP h
    simp only [runCalls, Option.some.injEq] at h
    exact h ▸ hP
  | cons c cs ih =>
    intro r r' hQ hP h
    obtain ⟨p, s, hc, hrest⟩ := (runCalls_cons heap r r' c cs).1 h
    exact ih _ _ (fun d hd => hQ d (List.mem_cons_of_mem _ hd))
      (hstep r c p s hP (hQ c (List.mem_cons_self _ _)) hc) hrest

theorem systemBytes_append (bs : List Block) (b : Block) :
    systemBytes (bs ++ [b]) = systemBytes bs + (b.size + ptrSize) := by
  simp only [systemBytes, List.map_append, List.sum_append, List.map_cons, List.map_nil,
    List.sum_cons, List.sum_nil, List.length_append, List.length_cons, List.length_nil, ptrSize]
  omega

theorem Run.init_sound : Run.init.Sound := by
  refine ⟨by decide, by decide, ?_⟩
  simp [Run.init, Arena.new]

theorem Run.record_sound (heap : Heap) (r : Run) (c : Call) (p : Nat) (s : Arena)
    (hr : r.Sound) (h : c.exec heap r.arena = Outcome.returned p s) :
    (r.record heap c p s).Sound := by
  obtain ⟨hu, hrem, hcur⟩ := hr
  rcases exec_cases heap r.arena c p s h with
    ⟨slop, needed, hs7, _, _, _, hsb, hfit, hp, hptr, hrm, hbl, hus⟩ |
    ⟨hsb, hbig, hp, hptr, hrm, hbl, hus⟩ | ⟨hsb, hsmall, hp, hptr, hrm, hbl, hus⟩
  · refine ⟨?_, ?_, ?_⟩
    · simp only [Run.record, hus, hbl, hu]
    · simp only [Run.record, hrm]; omega
    · simp only [Run.record, hsb, Bool.false_eq_true, if_false]
      cases hc : r.current with
      | none =>
        rw [hc] at hcur
        simp only at hcur ⊢
        omega
      | some b =>
        rw [hc] at hcur
        simp only at hcur ⊢
        refine ⟨hbl ▸ hcur.1, hcur.2.1, ?_⟩
        omega
  · refine ⟨?_, ?_, ?_⟩
    · simp only [Run.record, hus, hbl, hu, systemBytes_append]
      rw [← Nat.add_mod]
    · simp only [Run.record, hrm]; omega
    · simp only [Run.record, hsb, Bool.false_eq_true, if_false]
      cases hc : r.current with
      | none =>
        rw [hc] at hcur
        simp only at hcur ⊢
        omega
      | some b =>
        rw [hc] at hcur
        simp only at hcur ⊢
        refine ⟨?_, hcur.2.1, ?_⟩
        · rw [hbl]; exact List.mem_append_left _ hcur.1
        · omega
  · refine ⟨?_, ?_, ?_⟩
    · simp only [Run.record, hus, hbl, hu, systemBytes_append]
      rw [← Nat.add_mod]
    · simp only [Run.record, hrm]; omega
    · simp only [Run.record, hsb, if_true]
      refine ⟨?_, trivial, ?_⟩
      · rw [hbl]; simp
      · simp only [kBlockSize] at hsmall hrm ⊢
        omega

theorem Run.init_owned : Run.init.Owned := by
  refine ⟨?_, ?_⟩
  · intro a ha
    simp [Run.init] at ha
  · simp [Run.init, Arena.new, systemBytes]

theorem Run.record_owned (heap : Heap) (r : Run) (c : Call) (p : Nat) (s : Arena)
    (hr : r.Sound) (ho : r.Owned) (hc7 : c.bytes + 7 < sizeT)
    (h : c.exec heap r.arena = Outcome.returned p s) :
    (r.record heap c p s).Owned := by
  obtain ⟨_, hrem, hcur⟩ := hr
  obtain ⟨hin, hbud⟩ := ho
  have hsum : ((r.served ++ [(Served.mk p c.bytes)]).map (fun a => a.bytes)).sum
      = (r.served.map (fun a => a.bytes)).sum + c.bytes := by
    simp
  rcases exec_cases heap r.arena c p s h with
    ⟨slop, needed, hs7, _, _, hnw, hsb, hfit, hp, hptr, hrm, hbl, hus⟩ |
    ⟨hsb, hbig, hp, hptr, hrm, hbl, hus⟩ | ⟨hsb, hsmall, hp, hptr, hrm, hbl, hus⟩
  · have hneed : needed = c.bytes + slop := hnw (by omega)
    refine ⟨?_, ?_⟩
    · intro a ha
      simp only [Run.record, List.mem_append, List.mem_singleton] at ha
      simp only [Run.record, hbl]
      rcases ha with ha | rfl
      · exact hin a ha
      · cases hcr : r.current with
        | none =>
          rw [hcr] at hcur
          simp only at hcur
          left
          simp only
          omega
        | some b =>
          rw [hcr] at hcur
          simp only at hcur
          right
          refine ⟨b, hcur.1, ?_⟩
          simp only [Block.Contains]
          have := hcur.2.1
          omega
    · simp only [Run.record, hsum, hbl, hrm]
      omega
  · refine ⟨?_, ?_⟩
    · intro a ha
      simp only [Run.record, List.mem_append, List.mem_singleton] at ha
      simp only [Run.record, hbl]
      rcases ha with ha | rfl
      · rcases hin a ha with h0 | ⟨b, hb, hcont⟩
        · exact Or.inl h0
        · exact Or.inr ⟨b, List.mem_append_left _ hb, hcont⟩
      · right
        refine ⟨_, List.mem_append_right _ (List.mem_singleton_self _), ?_⟩
        simp only [Block.Contains]
        omega
    · simp only [Run.record, hsum, hbl, hrm, systemBytes_append]
      omega
  · refine ⟨?_, ?_⟩
    · intro a ha
      simp only [Run.record, List.mem_append, List.mem_singleton] at ha
      simp only [Run.record, hbl]
      rcases ha with ha | rfl
      · rcases hin a ha with h0 | ⟨b, hb, hcont⟩
        · exact Or.inl h0
        · exact Or.inr ⟨b, List.mem_append_left _ hb, hcont⟩
      · right
        refine ⟨_, List.mem_append_right _ (List.mem_singleton_self _), ?_⟩
        simp only [Block.Contains, kBlockSize] at hsmall ⊢
        omega
    · simp only [Run.record, hsum, hbl, hrm, systemBytes_append, kBlockSize] at hsmall ⊢
      omega

theorem Run.init_separated : Run.init.Separated := by
  refine ⟨?_, ?_⟩
  · intro a ha
    simp [Run.init] at ha
  · simp [Run.init]

theorem Run.record_separated (heap : Heap) (r : Run) (c : Call) (p : Nat) (s : Arena)
    (hr : r.Sound) (ho : r.Owned) (hsep : r.Separated) (hc7 : c.bytes + 7 < sizeT)
    (h : c.exec heap r.arena = Outcome.returned p s)
    (hdis : BlocksDisjoint s.blocks_) :
    (r.record heap c p s).Separated := by
  obtain ⟨_, hrem, hcur⟩ := hr
  obtain ⟨hin, _⟩ := ho
  obtain ⟨hfree, hapart⟩ := hsep
  -- the free region lies inside an owned block, unless it is empty
  have hfreeIn : r.arena.alloc_bytes_remaining_ = 0 ∨ ∃ b ∈ r.arena.blocks_,
      b.Contains r.arena.alloc_ptr_ r.arena.alloc_bytes_remaining_ := by
    cases hcr : r.current with
    | none =>
      rw [hcr] at hcur
      exact Or.inl hcur.2
    | some b =>
      rw [hcr] at hcur
      simp only at hcur
      right
      refine ⟨b, hcur.1, ?_⟩
      have := hcur.2.1
      simp only [Block.Contains]
      omega
  rcases exec_cases heap r.arena c p s h with
    ⟨slop, needed, hs7, _, _, hnw, hsb, hfit, hp, hptr, hrm, hbl, hus⟩ |
    ⟨hsb, hbig, hp, hptr, hrm, hbl, hus⟩ | ⟨hsb, hsmall, hp, hptr, hrm, hbl, hus⟩
  · have hneed : needed = c.bytes + slop := hnw (by omega)
    refine ⟨?_, ?_⟩
    · intro a ha
      simp only [Run.record, List.mem_append, List.mem_singleton] at ha
      simp only [Run.record, hptr, hrm]
      rcases ha with ha | rfl
      · have := hfree a ha
        simp only [RangesDisjoint] at this ⊢
        omega
      · simp only [RangesDisjoint]
        omega
    · simp only [Run.record]
      rw [List.pairwise_append]
      refine ⟨hapart, List.pairwise_singleton _ _, ?_⟩
      intro a ha b hb
      rw [List.mem_singleton] at hb
      subst hb
      have := hfree a ha
      simp only [Served.Disjoint, RangesDisjoint] at this ⊢
      omega
  · rw [hbl, BlocksDisjoint, List.pairwise_append] at hdis
    obtain ⟨_, _, hnew⟩ := hdis
    have hold : ∀ a ∈ r.served, RangesDisjoint a.ptr a.bytes (heap r.arena.blocks_.length)
        c.bytes := by
      intro a ha
      rcases hin a ha with h0 | ⟨b, hb, hcont⟩
      · exact Or.inl h0
      · have := hnew b hb _ (List.mem_singleton_self _)
        simp only [RangesDisjoint, Block.Contains] at this hcont ⊢
        omega
    refine ⟨?_, ?_⟩
    · intro a ha
      simp only [Run.record, List.mem_append, List.mem_singleton] at ha
      simp only [Run.record, hptr, hrm]
      rcases ha with ha | rfl
      · exact hfree a ha
      · rcases hfreeIn with h0 | ⟨b, hb, hcont⟩
        · exact Or.inr (Or.inl h0)
        · have := hnew b hb _ (List.mem_singleton_self _)
          simp only [RangesDisjoint, Block.Contains] at this hcont ⊢
          omega
    · simp only [Run.record]
      rw [List.pairwise_append]
      refine ⟨hapart, List.pairwise_singleton _ _, ?_⟩
      intro a ha b hb
      rw [List.mem_singleton] at hb
      subst hb
      simpa [Served.Disjoint, hp] using hold a ha
  · rw [hbl, BlocksDisjoint, List.pairwise_append] at hdis
    obtain ⟨_, _, hnew⟩ := hdis
    have hold : ∀ a ∈ r.served, RangesDisjoint a.ptr a.bytes (heap r.arena.blocks_.length)
        kBlockSize := by
      intro a ha
      rcases hin a ha with h0 | ⟨b, hb, hcont⟩
      · exact Or.inl h0
      · have := hnew b hb _ (List.mem_singleton_self _)
        simp only [RangesDisjoint, Block.Contains] at this hcont ⊢
        omega
    refine ⟨?_, ?_⟩
    · intro a ha
      simp only [Run.record, List.mem_append, List.mem_singleton] at ha
      simp only [Run.record, hptr, hrm]
      rcases ha with ha | rfl
      · have := hold a ha
        simp only [RangesDisjoint, kBlockSize] at this hsmall ⊢
        omega
      · simp only [RangesDisjoint, hp]
        omega
    · simp only [Run.record]
      rw [List.pairwise_append]
      refine ⟨hapart, List.pairwise_singleton _ _, ?_⟩
      intro a ha b hb
      rw [List.mem_singleton] at hb
      subst hb
      have := hold a ha
      simp only [Served.Disjoint, RangesDisjoint, kBlockSize, hp] at this hsmall ⊢
      omega

/-- A successful call keeps the owned blocks and appends at most one. -/
theorem exec_blocks_append (heap : Heap) (s : Arena) (c : Call) (p : Nat) (s' : Arena)
    (h : c.exec heap s = Outcome.returned p s') :
    ∃ ext, s'.blocks_ = s.blocks_ ++ ext ∧ ext.length ≤ 1 := by
  rcases exec_cases heap s c p s' h with
    ⟨_, _, _, _, _, _, _, _, _, _, _, hbl, _⟩ |
    ⟨_, _, _, _, _, hbl, _⟩ | ⟨_, _, _, _, _, hbl, _⟩
  · exact ⟨[], by simp [hbl], by simp⟩
  · exact ⟨_, hbl, by simp⟩
  · exact ⟨_, hbl, by simp⟩

theorem runCalls_blocks_append (heap : Heap) :
    ∀ (calls : List Call) (r r' : Run), runCalls heap r calls = some r' →
      ∃ ext, r'.arena.blocks_ = r.arena.blocks_ ++ ext := by
  intro calls
  induction calls with
  | nil =>
    intro r r' h
    simp only [runCalls, Option.some.injEq] at h
    exact ⟨[], by simp [h]⟩
  | cons c cs ih =>
    intro r r' h
    obtain ⟨p, s, hc, hrest⟩ := (runCalls_cons heap r r' c cs).1 h
    obtain ⟨e1, he1, _⟩ := exec_blocks_append heap r.arena c p s hc
    obtain ⟨e2, he2⟩ := ih _ _ hrest
    refine ⟨e1 ++ e2, ?_⟩
    rw [he2]
    simp only [Run.record, he1, List.append_assoc]

theorem BlocksDisjoint_of_append (bs ext : List Block) (h : BlocksDisjoint (bs ++ ext)) :
    BlocksDisjoint bs := by
  rw [BlocksDisjoint, List.pairwise_append] at h
  exact h.1

/-- All three invariants hold after every completed call sequence on a fresh
arena whose requests do not wrap and whose blocks are pairwise disjoint. -/
theorem runCalls_invariants (heap : Heap) :
    ∀ (calls : List Call) (r r' : Run), (∀ c ∈ calls, c.bytes + 7 < sizeT) →
      runCalls heap r calls = some r' →
      r.Sound → r.Owned →
      r'.Sound ∧ r'.Owned ∧
        (r.Separated → BlocksDisjoint r'.arena.blocks_ → r'.Separated) := by
  intro calls
  induction calls with
  | nil =>
    intro r r' _ h hs ho
    simp only [runCalls, Option.some.injEq] at h
    subst h
    exact ⟨hs, ho, fun hsep _ => hsep⟩
  | cons c cs ih =>
    intro r r' hQ h hs ho
    obtain ⟨p, s, hc, hrest⟩ := (runCalls_cons heap r r' c cs).1 h
    have hc7 := hQ c (List.mem_cons_self _ _)
    have hs1 := Run.record_sound heap r c p s hs hc
    have ho1 := Run.record_owned heap r c p s hs ho hc7 hc
    obtain ⟨hs2, ho2, hsep2⟩ :=
      ih _ _ (fun d hd => hQ d (List.mem_cons_of_mem _ hd)) hrest hs1 ho1
    refine ⟨hs2, ho2, ?_⟩
    intro hsep hdis
    obtain ⟨ext, hext⟩ := runCalls_blocks_append heap cs _ _ hrest
    have hd1 : BlocksDisjoint s.blocks_ := by
      rw [hext] at hdis
      exact BlocksDisjoint_of_append _ _ hdis
    exact hsep2 (Run.record_separated heap r c p s hs ho hsep hc7 hc hd1) hdis

theorem runCalls_sound (heap : Heap) (calls : List Call) (r r' : Run)
    (h : runCalls heap r calls = some r') (hs : r.Sound) : r'.Sound :=
  runCalls_invariant heap (fun _ => True) Run.Sound
    (fun r c p s hP _ hc => Run.record_sound heap r c p s hP hc)
    calls r r' (fun _ _ => trivial) hs h

theorem runCalls_served (heap : Heap) :
    ∀ (calls : List Call) (r r' : Run), runCalls heap r calls = some r' →
      r'.served.map (fun a => a.bytes)
        = r.served.map (fun a => a.bytes) ++ calls.map Call.bytes := by
  intro calls
  induction calls with
  | nil =>
    intro r r' h
    simp only [runCalls, Option.some.injEq] at h
    simp [h]
  | cons c cs ih =>
    intro r r' h
    obtain ⟨p, s, hc, hrest⟩ := (runCalls_cons heap r r' c cs).1 h
    rw [ih _ _ hrest]
    simp [Run.record]

/-- A served request of positive size that does not wrap lies inside one
block owned after the call. -/
theorem exec_owned (heap : Heap) (r : Run) (c : Call) (p : Nat) (s : Arena)
    (hr : r.Sound) (hpos : 0 < c.bytes) (hc7 : c.bytes + 7 < sizeT)
    (h : c.exec heap r.arena = Outcome.returned p s) :
    ∃ b ∈ s.blocks_, b.Contains p c.bytes := by
  obtain ⟨_, hrem, hcur⟩ := hr
  rcases exec_cases heap r.arena c p s h with
    ⟨slop, needed, hs7, _, _, hnw, hsb, hfit, hp, hptr, hrm, hbl, hus⟩ |
    ⟨hsb, hbig, hp, hptr, hrm, hbl, hus⟩ | ⟨hsb, hsmall, hp, hptr, hrm, hbl, hus⟩
  · have hneed : needed = c.bytes + slop := hnw (by omega)
    cases hcr : r.current with
    | none =>
      rw [hcr] at hcur
      simp only at hcur
      omega
    | some b =>
      rw [hcr] at hcur
      simp only at hcur
      refine ⟨b, hbl ▸ hcur.1, ?_⟩
      simp only [Block.Contains]
      have := hcur.2.1
      omega
  · refine ⟨_, hbl ▸ List.mem_append_right _ (List.mem_singleton_self _), ?_⟩
    simp only [Block.Contains]
    omega
  · refine ⟨_, hbl ▸ List.mem_append_right _ (List.mem_singleton_self _), ?_⟩
    simp only [Block.Contains, kBlockSize] at hsmall ⊢
    omega

theorem allocateFallback_result (heap : Heap) (s : Arena) (n : Nat) :
    (Arena.AllocateFallback heap s n).1 = heap s.blocks_.length := by
  unfold Arena.AllocateFallback Arena.AllocateNewBlock
  split_ifs <;> rfl

theorem allocateFallback_blocks (heap : Heap) (s : Arena) (n : Nat) :
    ∃ b, (Arena.AllocateFallback heap s n).2.blocks_ = s.blocks_ ++ [b] := by
  unfold Arena.AllocateFallback Arena.AllocateNewBlock
  split_ifs
  · exact ⟨_, rfl⟩
  · exact ⟨_, rfl⟩

theorem allocateAlignedBody_aligned (heap : Heap) (hheap : HeapAligned heap) (s : Arena)
    (n : Nat) : (Arena.AllocateAlignedBody heap s n).1 % 8 = 0 := by
  unfold Arena.AllocateAlignedBody
  simp only [and_align_eq_mod]
  have hal : align = 8 := by decide
  rw [hal]
  split_ifs with h1 h2
  · simpa using h1
  · exact allocateFallback_result heap s n ▸ hheap _
  · have := (slop_facts s.alloc_ptr_).2
    simpa [h1] using this
  · exact allocateFallback_result heap s n ▸ hheap _

/-- Over an allocator that returns 8-aligned blocks, `AllocateAligned` passes
its assertion in every state and returns a multiple of 8. -/
theorem allocateAligned_returns (heap : Heap) (hheap : HeapAligned heap) (s : Arena)
    (n : Nat) :
    ∃ p s', Arena.AllocateAligned heap s n = Outcome.returned p s' ∧ p % 8 = 0 := by
  have h := allocateAlignedBody_aligned heap hheap s n
  refine ⟨(Arena.AllocateAlignedBody heap s n).1, (Arena.AllocateAlignedBody heap s n).2, ?_, h⟩
  simp only [Arena.AllocateAligned, and_align_eq_mod, h, if_true]

theorem allocate_returns (heap : Heap) (s : Arena) (n : Nat) (hn : 0 < n) :
    ∃ p s', Arena.Allocate heap s n = Outcome.returned p s' := by
  unfold Arena.Allocate
  simp only [gt_iff_lt, hn, if_true]
  split_ifs
  · exact ⟨_, _, rfl⟩
  · exact ⟨_, _, rfl⟩

theorem sampleHeap_aligned : HeapAligned sampleHeap := by
  intro k
  simp only [sampleHeap]
  omega

/-! ## Arena: main results -/

/-- C1: after any completed sequence of `Allocate`/`AllocateAligned` calls on a
fresh arena, with every request size `n` such that `n + 7` does not wrap
`size_t` and with the blocks obtained from the system pairwise disjoint, there
is one returned range per call, of the size asked for, and no byte belongs to
the ranges `[p, p + n)` returned by two distinct calls. -/
theorem arena_returned_ranges_disjoint (heap : Heap) (calls : List Call) (r : Run)
    (hrun : runCalls heap Run.init calls = some r)
    (hsize : ∀ c ∈ calls, c.bytes + 7 < sizeT)
    (hheap : BlocksDisjoint r.arena.blocks_) :
    r.served.map (fun a => a.bytes) = calls.map Call.bytes ∧
      r.served.Pairwise (fun a b =>
        ∀ x, ¬ (a.ptr ≤ x ∧ x < a.ptr + a.bytes ∧ b.ptr ≤ x ∧ x < b.ptr + b.bytes)) := by
  refine ⟨by simpa [Run.init] using runCalls_served heap calls Run.init r hrun, ?_⟩
  obtain ⟨_, _, hsep⟩ :=
    runCalls_invariants heap calls Run.init r hsize hrun Run.init_sound Run.init_owned
  refine List.Pairwise.imp ?_ (hsep Run.init_separated hheap).apart
  intro a b hab x hx
  simp only [Served.Disjoint, RangesDisjoint] at hab
  omega

/-- Worked instance: the six ranges returned for
`sampleCalls` over `sampleHeap`. -/
theorem arena_returned_ranges_disjoint_witness :
    BlocksDisjoint sampleRun.arena.blocks_ ∧
      sampleRun.served.Pairwise (fun a b =>
        ∀ x, ¬ (a.ptr ≤ x ∧ x < a.ptr + a.bytes ∧ b.ptr ≤ x ∧ x < b.ptr + b.bytes)) :=
  ⟨by decide,
    (arena_returned_ranges_disjoint sampleHeap sampleCalls sampleRun (by decide) (by decide)
      (by decide)).2⟩

/-- C2: over an allocator whose blocks start at multiples of 8 (and with
`align = 8`), in every arena state, hence in every state reachable from a
fresh arena, and for every request size, `AllocateAligned` passes its final
assertion and returns a multiple of 8, whether served from the current block
or by `AllocateFallback`. -/
theorem arena_allocateAligned_aligned (heap : Heap) (hheap : HeapAligned heap) (s : Arena)
    (n : Nat) :
    align = 8 ∧
      ∃ p s', Arena.AllocateAligned heap s n = Outcome.returned p s' ∧
        p % 8 = 0 ∧ p &&& (align - 1) = 0 := by
  obtain ⟨p, s', h, hp⟩ := allocateAligned_returns heap hheap s n
  exact ⟨by decide, p, s', h, hp, by rw [and_align_eq_mod]; exact hp⟩

/-- Worked instance: a misaligned cursor, once
with room in the current block and once without. -/
theorem arena_allocateAligned_aligned_witness :
    (∀ k, sampleHeap k % 8 = 0) ∧
      (∃ p s', Arena.AllocateAligned sampleHeap
          { alloc_ptr_ := 65537, alloc_bytes_remaining_ := 4095,
            blocks_ := [{ start := 65536, size := 4096 }], memory_usage_ := 4104 } 5
          = Outcome.returned p s' ∧ p % 8 = 0 ∧ p &&& (align - 1) = 0) ∧
      (∃ p s', Arena.AllocateAligned sampleHeap
          { alloc_ptr_ := 65537, alloc_bytes_remaining_ := 4095,
            blocks_ := [{ start := 65536, size := 4096 }], memory_usage_ := 4104 } 4090
          = Outcome.returned p s' ∧ p % 8 = 0 ∧ p &&& (align - 1) = 0) :=
  ⟨fun k => by simp only [sampleHeap]; omega,
    (arena_allocateAligned_aligned sampleHeap (fun k => by simp only [sampleHeap]; omega)
      _ 5).2,
    (arena_allocateAligned_aligned sampleHeap (fun k => by simp only [sampleHeap]; omega)
      _ 4090).2⟩

/-- C5: after any completed sequence of calls on a fresh arena in which no
size computation wraps (every request `n` has `n + 7` below `2 ^ 64`, and the
bytes requested from the system fit `size_t`), `MemoryUsage()` is at least
the sum of the requested sizes. -/
theorem arena_usage_ge_requested (heap : Heap) (calls : List Call) (r : Run)
    (hrun : runCalls heap Run.init calls = some r)
    (hsize : ∀ c ∈ calls, c.bytes + 7 < sizeT)
    (hfit : systemBytes r.arena.blocks_ < sizeT) :
    (calls.map Call.bytes).sum ≤ r.arena.MemoryUsage := by
  obtain ⟨hs, ho, _⟩ :=
    runCalls_invariants heap calls Run.init r hsize hrun Run.init_sound Run.init_owned
  have hserved := runCalls_served heap calls Run.init r hrun
  simp only [Run.init, List.map_nil, List.nil_append] at hserved
  have hb := ho.budget
  rw [hserved] at hb
  have hu := hs.usage
  rw [Nat.mod_eq_of_lt hfit] at hu
  simp only [Arena.MemoryUsage, hu]
  omega

/-- Worked instance: `sampleCalls` ask for 6126 bytes
and leave a usage of 8112. -/
theorem arena_usage_ge_requested_witness :
    (sampleCalls.map Call.bytes).sum = 6126 ∧ sampleRun.arena.MemoryUsage = 8112 ∧
      (sampleCalls.map Call.bytes).sum ≤ sampleRun.arena.MemoryUsage :=
  ⟨by decide, by decide,
    arena_usage_ge_requested sampleHeap sampleCalls sampleRun (by decide) (by decide)
      (by decide)⟩

/-- C6: a fresh arena has usage 0, and in every state reached by a completed
sequence of calls `MemoryUsage()` is the sum of the sizes of the blocks in
`blocks_` plus `sizeof(char*) = 8` per block, as a `size_t`: reduced modulo
`2 ^ 64`, and therefore exactly that number whenever it is below `2 ^ 64`. -/
theorem arena_usage_accounting (heap : Heap) (calls : List Call) (r : Run)
    (hrun : runCalls heap Run.init calls = some r) :
    Arena.new.MemoryUsage = 0 ∧
      r.arena.MemoryUsage
        = ((r.arena.blocks_.map (fun b => b.size)).sum + 8 * r.arena.blocks_.length)
            % 2 ^ 64 ∧
      ((r.arena.blocks_.map (fun b => b.size)).sum + 8 * r.arena.blocks_.length < 2 ^ 64 →
        r.arena.MemoryUsage
          = (r.arena.blocks_.map (fun b => b.size)).sum + 8 * r.arena.blocks_.length) := by
  have hu := (runCalls_sound heap calls Run.init r hrun Run.init_sound).usage
  simp only [systemBytes, ptrSize, sizeT] at hu
  refine ⟨rfl, hu, ?_⟩
  intro hlt
  simp only [Arena.MemoryUsage, hu]
  exact Nat.mod_eq_of_lt hlt

/-- Worked instance: after `sampleCalls` the blocks have
4096 and 4000 bytes and the usage is `4096 + 4000 + 8 * 2`. -/
theorem arena_usage_accounting_witness :
    sampleRun.arena.MemoryUsage = 4096 + 4000 + 8 * 2 ∧
      sampleRun.arena.MemoryUsage
        = (sampleRun.arena.blocks_.map (fun b => b.size)).sum
            + 8 * sampleRun.arena.blocks_.length :=
  ⟨by decide,
    (arena_usage_accounting sampleHeap sampleCalls sampleRun (by decide)).2.2 (by decide)⟩

/-- C7, as stated, fails in its account of the cursor: `cursor +
alloc_bytes_remaining_` need not be the end of the most recent 4096-byte
block of `blocks_`. After `Allocate(1); Allocate(4096)` on a fresh arena the
second request got a block of its own, which is the most recent 4096-byte
block and ends at 135168, while the cursor still belongs to the first block
and `cursor + alloc_bytes_remaining_` is 69632. After `Allocate(2000)` on a
fresh arena `blocks_` holds no 4096-byte block at all. -/
theorem arena_cursor_not_in_latest_4096_block :
    runCalls sampleHeap Run.init [Call.Allocate 1, Call.Allocate 4096]
        = some
          { arena :=
              { alloc_ptr_ := 65537, alloc_bytes_remaining_ := 4095,
                blocks_ := [{ start := 65536, size := 4096 }, { start := 131072, size := 4096 }],
                memory_usage_ := 8208 }
            served := [{ ptr := 65536, bytes := 1 }, { ptr := 131072, bytes := 4096 }]
            current := some { start := 65536, size := 4096 } } ∧
      ([({ start := 65536, size := 4096 } : Block), { start := 131072, size := 4096 }].filter
          (fun b => b.size = 4096)).getLast?
        = some { start := 131072, size := 4096 } ∧
      65537 + 4095 ≠ 131072 + 4096 ∧
      runCalls sampleHeap Run.init [Call.Allocate 2000]
        = some
          { arena :=
              { alloc_ptr_ := 0, alloc_bytes_remaining_ := 0,
                blocks_ := [{ start := 65536, size := 2000 }], memory_usage_ := 2008 }
            served := [{ ptr := 65536, bytes := 2000 }]
            current := none } ∧
      ([({ start := 65536, size := 2000 } : Block)].filter (fun b => b.size = 4096)).getLast?
        = none := by
  decide

/-- C7, amended: in every state reached from a fresh arena by a completed
sequence of calls, and for every `n > 0` with `n + 7 < 2 ^ 64`, `Allocate(n)`
returns a pointer whose `n` bytes lie inside one single block of `blocks_`,
and so does `AllocateAligned(n)` whenever it returns, which it does over an
8-aligned allocator. The cursor never runs past the end of the current
block: `alloc_bytes_remaining_ ≤ 4096`, and once `AllocateFallback` has
installed a current block (`alloc_ptr_ = AllocateNewBlock(kBlockSize)`) the
cursor lies in the most recently installed one, a 4096-byte block of
`blocks_`, with `cursor + alloc_bytes_remaining_` its end; before that the
cursor is null with nothing remaining. -/
theorem arena_returned_bytes_owned (heap : Heap) (calls : List Call) (r : Run)
    (hrun : runCalls heap Run.init calls = some r) (n : Nat) (hn : 0 < n)
    (hn7 : n + 7 < sizeT) :
    (∃ p s', Arena.Allocate heap r.arena n = Outcome.returned p s' ∧
        ∃ b ∈ s'.blocks_, b.start ≤ p ∧ p + n ≤ b.start + b.size) ∧
      (∀ p s', Arena.AllocateAligned heap r.arena n = Outcome.returned p s' →
        ∃ b ∈ s'.blocks_, b.start ≤ p ∧ p + n ≤ b.start + b.size) ∧
      (HeapAligned heap →
        ∃ p s', Arena.AllocateAligned heap r.arena n = Outcome.returned p s' ∧
          ∃ b ∈ s'.blocks_, b.start ≤ p ∧ p + n ≤ b.start + b.size) ∧
      r.arena.alloc_bytes_remaining_ ≤ 4096 ∧
      (match r.current with
        | none => r.arena.alloc_ptr_ = 0 ∧ r.arena.alloc_bytes_remaining_ = 0
        | some b =>
          b ∈ r.arena.blocks_ ∧ b.size = 4096 ∧ b.start ≤ r.arena.alloc_ptr_ ∧
            r.arena.alloc_ptr_ + r.arena.alloc_bytes_remaining_ = b.start + 4096) := by
  have hs := runCalls_sound heap calls Run.init r hrun Run.init_sound
  have haligned : ∀ p s', Arena.AllocateAligned heap r.arena n = Outcome.returned p s' →
      ∃ b ∈ s'.blocks_, b.start ≤ p ∧ p + n ≤ b.start + b.size := fun p s' h =>
    exec_owned heap r (Call.AllocateAligned n) p s' hs hn hn7 h
  refine ⟨?_, haligned, ?_, hs.remaining_le, ?_⟩
  · obtain ⟨p, s', h⟩ := allocate_returns heap r.arena n hn
    exact ⟨p, s', h, exec_owned heap r (Call.Allocate n) p s' hs hn hn7 h⟩
  · intro hheap
    obtain ⟨p, s', h, _⟩ := allocateAligned_returns heap hheap r.arena n
    exact ⟨p, s', h, haligned p s' h⟩
  · have hc := hs.cursor
    cases hcr : r.current with
    | none => rw [hcr] at hc; exact hc
    | some b =>
      rw [hcr] at hc
      simp only [kBlockSize] at hc ⊢
      obtain ⟨h1, h2, h3⟩ := hc
      have hle := hs.remaining_le
      simp only [kBlockSize] at hle
      exact ⟨h1, h2, by omega, by omega⟩

/-- Worked instance: after `sampleCalls`,
`Allocate(100)` is served from the current block and `Allocate(3000)` by a
block of its own. -/
theorem arena_returned_bytes_owned_witness :
    (∃ p s', Arena.Allocate sampleHeap sampleRun.arena 100 = Outcome.returned p s' ∧
        ∃ b ∈ s'.blocks_, b.start ≤ p ∧ p + 100 ≤ b.start + b.size) ∧
      (∃ p s', Arena.Allocate sampleHeap sampleRun.arena 3000 = Outcome.returned p s' ∧
        ∃ b ∈ s'.blocks_, b.start ≤ p ∧ p + 3000 ≤ b.start + b.size) :=
  ⟨(arena_returned_bytes_owned sampleHeap sampleCalls sampleRun (by decide) 100 (by decide)
      (by decide)).1,
    (arena_returned_bytes_owned sampleHeap sampleCalls sampleRun (by decide) 3000 (by decide)
      (by decide)).1⟩

/-- C8: in every state, a call of `Allocate` or `AllocateAligned`, whether it
returns or fails an assertion, leaves `blocks_` with the former list as an
initial segment followed by at most one new block; so a range that lay
inside an owned block still does. -/
theorem arena_blocks_only_grow (heap : Heap) (s : Arena) (c : Call) :
    ∃ ext, (c.exec heap s).state.blocks_ = s.blocks_ ++ ext ∧ ext.length ≤ 1 ∧
      ∀ q m, (∃ b ∈ s.blocks_, b.Contains q m) →
        ∃ b ∈ (c.exec heap s).state.blocks_, b.Contains q m := by
  have key : ∃ ext, (c.exec heap s).state.blocks_ = s.blocks_ ++ ext ∧ ext.length ≤ 1 := by
    cases c with
    | Allocate n =>
      simp only [Call.exec, Arena.Allocate]
      split_ifs
      · exact ⟨[], by simp [Outcome.state], by simp⟩
      · obtain ⟨b, hb⟩ := allocateFallback_blocks heap s n
        exact ⟨[b], by simp [Outcome.state, hb], by simp⟩
      · exact ⟨[], by simp [Outcome.state], by simp⟩
    | AllocateAligned n =>
      have hstate : (Arena.AllocateAligned heap s n).state
          = (Arena.AllocateAlignedBody heap s n).2 := by
        simp only [Arena.AllocateAligned]
        split_ifs <;> rfl
      obtain ⟨b, hb⟩ := allocateFallback_blocks heap s n
      simp only [Call.exec, hstate, Arena.AllocateAlignedBody]
      split_ifs
      · exact ⟨[], by simp, by simp⟩
      · exact ⟨[b], by simp [hb], by simp⟩
      · exact ⟨[], by simp, by simp⟩
      · exact ⟨[b], by simp [hb], by simp⟩
  obtain ⟨ext, hext, hlen⟩ := key
  refine ⟨ext, hext, hlen, ?_⟩
  rintro q m ⟨b, hb, hcont⟩
  exact ⟨b, by rw [hext]; exact List.mem_append_left _ hb, hcont⟩

/-- C9: in every arena state `Allocate(0)` fails its assertion before
touching the state, and for every `n > 0` `Allocate(n)` passes the assertion
and returns a pointer. -/
theorem arena_allocate_rejects_zero (heap : Heap) (s : Arena) (n : Nat) (hn : 0 < n) :
    Arena.Allocate heap s 0 = Outcome.assertFailed s ∧
      ∃ p s', Arena.Allocate heap s n = Outcome.returned p s' :=
  ⟨by simp [Arena.Allocate], allocate_returns heap s n hn⟩

/-- Worked instance: a one-byte request after
`sampleCalls`. -/
theorem arena_allocate_rejects_zero_witness :
    Arena.Allocate sampleHeap sampleRun.arena 0 = Outcome.assertFailed sampleRun.arena ∧
      ∃ p s', Arena.Allocate sampleHeap sampleRun.arena 1 = Outcome.returned p s' :=
  arena_allocate_rejects_zero sampleHeap sampleRun.arena 1 (by decide)

/-- C10, as stated, fails: `AllocateAligned` has no `assert(bytes > 0)`; on a
fresh arena `AllocateAligned(0)` returns the null cursor and leaves the state
unchanged, while `Allocate(0)` fails its assertion. -/
theorem arena_allocateAligned_zero_accepted :
    Arena.AllocateAligned sampleHeap Arena.new 0 = Outcome.returned 0 Arena.new ∧
      Arena.Allocate sampleHeap Arena.new 0 = Outcome.assertFailed Arena.new := by
  decide

/-- C10, amended: over an 8-aligned allocator, in every state reached from a
fresh arena by a completed sequence of calls, `AllocateAligned(0)` is not
rejected (it returns a multiple of 8) whereas `Allocate(0)` is, and for every
`n > 0` with `n + 7 < 2 ^ 64` `AllocateAligned(n)` returns a multiple of 8
whose `n` bytes lie inside one block of `blocks_`. -/
theorem arena_allocateAligned_contract (heap : Heap) (hheap : HeapAligned heap)
    (calls : List Call) (r : Run) (hrun : runCalls heap Run.init calls = some r) (n : Nat)
    (hn : 0 < n) (hn7 : n + 7 < sizeT) :
    (∃ p s', Arena.AllocateAligned heap r.arena 0 = Outcome.returned p s' ∧ p % 8 = 0) ∧
      Arena.Allocate heap r.arena 0 = Outcome.assertFailed r.arena ∧
      ∃ p s', Arena.AllocateAligned heap r.arena n = Outcome.returned p s' ∧ p % 8 = 0 ∧
        ∃ b ∈ s'.blocks_, b.start ≤ p ∧ p + n ≤ b.start + b.size := by
  have hs := runCalls_sound heap calls Run.init r hrun Run.init_sound
  refine ⟨allocateAligned_returns heap hheap r.arena 0, by simp [Arena.Allocate], ?_⟩
  obtain ⟨p, s', h, hp⟩ := allocateAligned_returns heap hheap r.arena n
  exact ⟨p, s', h, hp, exec_owned heap r (Call.AllocateAligned n) p s' hs hn hn7 h⟩

/-- Worked instance: requests of 0 and of 24
bytes after `sampleCalls`. -/
theorem arena_allocateAligned_contract_witness :
    (∃ p s', Arena.AllocateAligned sampleHeap sampleRun.arena 0 = Outcome.returned p s' ∧
        p % 8 = 0) ∧
      Arena.Allocate sampleHeap sampleRun.arena 0 = Outcome.assertFailed sampleRun.arena ∧
      ∃ p s', Arena.AllocateAligned sampleHeap sampleRun.arena 24 = Outcome.returned p s' ∧
        p % 8 = 0 ∧ ∃ b ∈ s'.blocks_, b.start ≤ p ∧ p + 24 ≤ b.start + b.size :=
  arena_allocateAligned_contract sampleHeap (fun k => by simp only [sampleHeap]; omega)
    sampleCalls sampleRun (by decide) 24 (by decide) (by decide)

/-- C11: for a count within the range where `int` arithmetic is defined, the
assertion `refs_ >= 0` of `Unref()` holds if and only if the count before the
call is at least 1; on a freshly constructed MemTable `Unref()` drives the
count to -1 and fails the assertion instead of returning. -/
theorem memtable_unref_assertion (m : MemTable) (hlo : -2147483648 < m.refs_)
    (hhi : m.refs_ ≤ 2147483647) :
    ((∀ m1, m.Unref ≠ UnrefResult.assertFailed m1) ↔ 1 ≤ m.refs_) ∧
      (m.refs_ ≤ 0 → m.Unref = UnrefResult.assertFailed { refs_ := m.refs_ - 1 }) ∧
      MemTable.new.Unref = UnrefResult.assertFailed { refs_ := -1 } ∧
      lifecycle [RefOp.Unref] = Life.assertFailedAt 0 := by
  have hw : wrapInt (m.refs_ - 1) = m.refs_ - 1 :=
    wrapInt_of_range _ (by omega) (by omega)
  have hfail : m.refs_ ≤ 0 → m.Unref = UnrefResult.assertFailed { refs_ := m.refs_ - 1 } := by
    intro h0
    have hneg : ¬ m.refs_ - 1 ≥ 0 := by omega
    simp only [MemTable.Unref, hw, hneg, if_false]
  refine ⟨⟨?_, ?_⟩, hfail, by decide, by decide⟩
  · intro hall
    by_contra hcon
    exact hall _ (hfail (by omega))
  · intro h1 m1
    have hge : m.refs_ - 1 ≥ 0 := by omega
    simp only [MemTable.Unref, hw, hge, if_true]
    split_ifs <;> simp

/-- Worked instance: a count of 1 passes the assertion, a count of 0 does
not. -/
theorem memtable_unref_assertion_witness :
    (∀ m1, MemTable.Unref { refs_ := 1 } ≠ UnrefResult.assertFailed m1) ∧
      MemTable.Unref { refs_ := 0 } = UnrefResult.assertFailed { refs_ := 0 - 1 } :=
  ⟨(memtable_unref_assertion { refs_ := 1 } (by decide) (by decide)).1.2 (by decide),
    (memtable_unref_assertion { refs_ := 0 } (by decide) (by decide)).2.1 (by decide)⟩

/-- C13: in every state, for `n > alloc_bytes_remaining_` and `n > 1024`
(a quarter of `kBlockSize`), `Allocate(n)` appends one block of exactly `n`
bytes, returns its start, leaves `alloc_ptr_` and `alloc_bytes_remaining_`
unchanged, and adds `n + sizeof(char*)` to `MemoryUsage()` (a `size_t`
addition, exact whenever it does not wrap). -/
theorem arena_large_request_dedicated_block (heap : Heap) (s : Arena) (n : Nat)
    (hrem : n > s.alloc_bytes_remaining_) (hbig : n > 1024) :
    kBlockSize / 4 = 1024 ∧
      ∃ s', Arena.Allocate heap s n = Outcome.returned (heap s.blocks_.length) s' ∧
        s'.blocks_ = s.blocks_ ++ [{ start := heap s.blocks_.length, size := n }] ∧
        s'.alloc_ptr_ = s.alloc_ptr_ ∧
        s'.alloc_bytes_remaining_ = s.alloc_bytes_remaining_ ∧
        s'.MemoryUsage = (s.MemoryUsage + (n + 8)) % 2 ^ 64 ∧
        (s.MemoryUsage + (n + 8) < 2 ^ 64 → s'.MemoryUsage = s.MemoryUsage + (n + 8)) := by
  refine ⟨by decide, ?_⟩
  have h0 : n > 0 := by omega
  have h1 : ¬ n ≤ s.alloc_bytes_remaining_ := by omega
  have h2 : n > kBlockSize / 4 := by simp only [kBlockSize]; omega
  have hmod : (s.memory_usage_ + (n + ptrSize) % sizeT) % sizeT
      = (s.memory_usage_ + (n + 8)) % 2 ^ 64 := by
    simp only [ptrSize, sizeT, Nat.add_mod_mod]
  refine ⟨(Arena.AllocateNewBlock heap s n).2, ?_, rfl, rfl, rfl, ?_, ?_⟩
  · simp only [Arena.Allocate, Arena.AllocateFallback, Arena.AllocateNewBlock, h0, h1, h2,
      if_true, if_false]
  · simp only [Arena.MemoryUsage, Arena.AllocateNewBlock, hmod]
  · intro hlt
    simp only [Arena.MemoryUsage, Arena.AllocateNewBlock, hmod] at hlt ⊢
    exact Nat.mod_eq_of_lt hlt

/-- Worked instance: a request of 3000 bytes after `sampleCalls`, where 1964
bytes remain. -/
theorem arena_large_request_dedicated_block_witness :
    ∃ s', Arena.Allocate sampleHeap sampleRun.arena 3000
        = Outcome.returned (sampleHeap sampleRun.arena.blocks_.length) s' ∧
      s'.blocks_ = sampleRun.arena.blocks_
        ++ [{ start := sampleHeap sampleRun.arena.blocks_.length, size := 3000 }] ∧
      s'.alloc_ptr_ = sampleRun.arena.alloc_ptr_ ∧
      s'.alloc_bytes_remaining_ = sampleRun.arena.alloc_bytes_remaining_ ∧
      s'.MemoryUsage = (sampleRun.arena.MemoryUsage + (3000 + 8)) % 2 ^ 64 ∧
      (sampleRun.arena.MemoryUsage + (3000 + 8) < 2 ^ 64 →
        s'.MemoryUsage = sampleRun.arena.MemoryUsage + (3000 + 8)) :=
  (arena_large_request_dedicated_block sampleHeap sampleRun.arena 3000 (by decide)
    (by decide)).2

/-- C14: in every state, for `alloc_bytes_remaining_ < n ≤ 1024`, `Allocate(n)`
appends one block of exactly 4096 bytes and returns its start; afterwards
`alloc_ptr_` is that start plus `n` and `alloc_bytes_remaining_` is
`4096 - n`. -/
theorem arena_small_request_fresh_block (heap : Heap) (s : Arena) (n : Nat)
    (hrem : s.alloc_bytes_remaining_ < n) (hsmall : n ≤ 1024) :
    kBlockSize = 4096 ∧
      ∃ s', Arena.Allocate heap s n = Outcome.returned (heap s.blocks_.length) s' ∧
        s'.blocks_ = s.blocks_ ++ [{ start := heap s.blocks_.length, size := 4096 }] ∧
        s'.alloc_ptr_ = heap s.blocks_.length + n ∧
        s'.alloc_bytes_remaining_ = 4096 - n := by
  refine ⟨rfl, ?_⟩
  have h0 : n > 0 := by omega
  have h1 : ¬ n ≤ s.alloc_bytes_remaining_ := by omega
  have h3 : ¬ n > 4096 / 4 := by omega
  refine ⟨(Arena.AllocateFallback heap s n).2, ?_, ?_, ?_, ?_⟩ <;>
    simp only [Arena.Allocate, Arena.AllocateFallback, Arena.AllocateNewBlock, h0, h1, h3,
      if_true, if_false, kBlockSize]

/-- Worked instance: the boundary request of exactly 1024 bytes on a fresh
arena. -/
theorem arena_small_request_fresh_block_witness :
    ∃ s', Arena.Allocate sampleHeap Arena.new 1024
        = Outcome.returned (sampleHeap Arena.new.blocks_.length) s' ∧
      s'.blocks_ = Arena.new.blocks_
        ++ [{ start := sampleHeap Arena.new.blocks_.length, size := 4096 }] ∧
      s'.alloc_ptr_ = sampleHeap Arena.new.blocks_.length + 1024 ∧
      s'.alloc_bytes_remaining_ = 4096 - 1024 :=
  (arena_small_request_fresh_block sampleHeap Arena.new 1024 (by decide) (by decide)).2

/-- C15: in every state, for `0 < n ≤ alloc_bytes_remaining_`, `Allocate(n)`
returns the old `alloc_ptr_`, advances `alloc_ptr_` by `n`, decreases
`alloc_bytes_remaining_` by `n`, and leaves `blocks_` and `MemoryUsage()` as
they were. -/
theorem arena_fast_path_bump (heap : Heap) (s : Arena) (n : Nat) (hpos : 0 < n)
    (hfit : n ≤ s.alloc_bytes_remaining_) :
    Arena.Allocate heap s n
        = Outcome.returned s.alloc_ptr_
          { alloc_ptr_ := s.alloc_ptr_ + n
            alloc_bytes_remaining_ := s.alloc_bytes_remaining_ - n
            blocks_ := s.blocks_
            memory_usage_ := s.memory_usage_ } ∧
      ∀ p s', Arena.Allocate heap s n = Outcome.returned p s' →
        p = s.alloc_ptr_ ∧ s'.alloc_ptr_ = s.alloc_ptr_ + n ∧
          s'.alloc_bytes_remaining_ + n = s.alloc_bytes_remaining_ ∧
          s'.blocks_ = s.blocks_ ∧ s'.MemoryUsage = s.MemoryUsage := by
  have h : Arena.Allocate heap s n
        = Outcome.returned s.alloc_ptr_
          { alloc_ptr_ := s.alloc_ptr_ + n
            alloc_bytes_remaining_ := s.alloc_bytes_remaining_ - n
            blocks_ := s.blocks_
            memory_usage_ := s.memory_usage_ } := by
    simp only [Arena.Allocate, gt_iff_lt, hpos, hfit, if_true]
  refine ⟨h, ?_⟩
  intro p s' h2
  rw [h] at h2
  simp only [Outcome.returned.injEq] at h2
  obtain ⟨rfl, rfl⟩ := h2
  refine ⟨rfl, rfl, ?_, rfl, rfl⟩
  simp only
  omega

/-- Worked instance: a request of 100 bytes after `sampleCalls`, where 1964
bytes remain. -/
theorem arena_fast_path_bump_witness :
    Arena.Allocate sampleHeap sampleRun.arena 100
      = Outcome.returned 67668
        { alloc_ptr_ := 67668 + 100
          alloc_bytes_remaining_ := 1964 - 100
          blocks_ := sampleRun.arena.blocks_
          memory_usage_ := 8112 } :=
  (arena_fast_path_bump sampleHeap sampleRun.arena 100 (by decide) (by decide)).1

/-- Over an allocator that returns 8-aligned blocks, the free region of a
reachable state ends at a multiple of 8. -/
theorem runCalls_end_aligned (heap : Heap) (hheap : HeapAligned heap) (calls : List Call)
    (r : Run) (hrun : runCalls heap Run.init calls = some r) :
    (r.arena.alloc_ptr_ + r.arena.alloc_bytes_remaining_) % 8 = 0 := by
  refine runCalls_invariant heap (fun _ => True)
    (fun r => (r.arena.alloc_ptr_ + r.arena.alloc_bytes_remaining_) % 8 = 0) ?_
    calls Run.init r (fun _ _ => trivial) (by decide) hrun
  intro r c p s hP _ h
  simp only [Run.record]
  rcases exec_cases heap r.arena c p s h with
    ⟨slop, needed, _, _, _, _, _, hfit, _, hptr, hrm, _, _⟩ |
    ⟨_, _, _, hptr, hrm, _, _⟩ | ⟨_, hsmall, _, hptr, hrm, _, _⟩
  · rw [hptr, hrm]
    have : r.arena.alloc_ptr_ + needed + (r.arena.alloc_bytes_remaining_ - needed)
        = r.arena.alloc_ptr_ + r.arena.alloc_bytes_remaining_ := by omega
    rw [this]
    exact hP
  · rw [hptr, hrm]
    exact hP
  · rw [hptr, hrm]
    have := hheap r.arena.blocks_.length
    simp only [kBlockSize] at hsmall ⊢
    omega

/-- C12: in every state, a call of `Allocate(n)` (`n > 0`) or
`AllocateAligned(n)` that returns and whose addition to the usage counter
does not wrap `size_t` leaves `MemoryUsage()` at least as large as before: it
grows by the size of the appended block plus `sizeof(char*)`, or not at
all when no block is appended. -/
theorem arena_usage_monotone (heap : Heap) (s : Arena) (c : Call) (p : Nat) (s' : Arena)
    (h : c.exec heap s = Outcome.returned p s')
    (hfit : s.MemoryUsage + systemBytes (s'.blocks_.drop s.blocks_.length) < sizeT) :
    s.MemoryUsage ≤ s'.MemoryUsage ∧
      s'.MemoryUsage = s.MemoryUsage + systemBytes (s'.blocks_.drop s.blocks_.length) := by
  simp only [Arena.MemoryUsage] at hfit ⊢
  rcases exec_cases heap s c p s' h with
    ⟨_, _, _, _, _, _, _, _, _, _, _, hbl, hus⟩ |
    ⟨_, _, _, _, _, hbl, hus⟩ | ⟨_, _, _, _, _, hbl, hus⟩
  · rw [hbl, hus]
    simp [systemBytes]
  · rw [hbl, List.drop_left] at hfit ⊢
    simp only [systemBytes, List.map_cons, List.map_nil, List.sum_cons, List.sum_nil,
      List.length_cons, List.length_nil] at hfit ⊢
    rw [hus, Nat.add_mod_mod, Nat.mod_eq_of_lt (by omega)]
    omega
  · rw [hbl, List.drop_left] at hfit ⊢
    simp only [systemBytes, List.map_cons, List.map_nil, List.sum_cons, List.sum_nil,
      List.length_cons, List.length_nil] at hfit ⊢
    rw [hus, Nat.add_mod_mod, Nat.mod_eq_of_lt (by omega)]
    omega

/-- Worked instance: a request of 3000 bytes after `sampleCalls` raises the
usage from 8112 to 11120. -/
theorem arena_usage_monotone_witness :
    sampleRun.arena.MemoryUsage
      ≤ Arena.MemoryUsage
          { alloc_ptr_ := 67668, alloc_bytes_remaining_ := 1964,
            blocks_ := [{ start := 65536, size := 4096 }, { start := 131072, size := 4000 },
              { start := 196608, size := 3000 }],
            memory_usage_ := 11120 } :=
  (arena_usage_monotone sampleHeap sampleRun.arena (Call.Allocate 3000) 196608
    { alloc_ptr_ := 67668, alloc_bytes_remaining_ := 1964,
      blocks_ := [{ start := 65536, size := 4096 }, { start := 131072, size := 4000 },
        { start := 196608, size := 3000 }],
      memory_usage_ := 11120 } (by decide) (by decide)).1

/-- C16: over an allocator that returns 8-aligned blocks, in every state
reached from a fresh arena by a completed sequence of calls, a call of
`Allocate(n)` or `AllocateAligned(n)` that takes the branch of
`AllocateFallback` abandoning the current block finds fewer than
`kBlockSize / 4 = 1024` bytes remaining in it; the call returns the start of
a fresh block of `kBlockSize` bytes and moves the cursor into it. -/
theorem arena_abandoned_block_waste (heap : Heap) (hheap : HeapAligned heap)
    (calls : List Call) (r : Run) (hrun : runCalls heap Run.init calls = some r) (c : Call)
    (hst : c.startsBlock r.arena = true) :
    r.arena.alloc_bytes_remaining_ < kBlockSize / 4 ∧ kBlockSize / 4 = 1024 ∧
      ∃ s', c.exec heap r.arena = Outcome.returned (heap r.arena.blocks_.length) s' ∧
        s'.blocks_ = r.arena.blocks_
          ++ [{ start := heap r.arena.blocks_.length, size := kBlockSize }] ∧
        s'.alloc_ptr_ = heap r.arena.blocks_.length + c.bytes ∧
        s'.alloc_bytes_remaining_ = kBlockSize - c.bytes := by
  have hend := runCalls_end_aligned heap hheap calls r hrun
  have hret : ∃ p s', c.exec heap r.arena = Outcome.returned p s' := by
    cases c with
    | Allocate n =>
      simp only [Call.startsBlock, decide_eq_true_eq] at hst
      exact allocate_returns heap r.arena n hst.1
    | AllocateAligned n =>
      obtain ⟨p, s', h, _⟩ := allocateAligned_returns heap hheap r.arena n
      exact ⟨p, s', h⟩
  refine ⟨?_, by decide, ?_⟩
  · cases c with
    | Allocate n =>
      simp only [Call.startsBlock, decide_eq_true_eq, kBlockSize] at hst ⊢
      omega
    | AllocateAligned n =>
      simp only [Call.startsBlock, decide_eq_true_eq, and_align_eq_mod, kBlockSize] at hst ⊢
      have hal : align = 8 := by decide
      rw [hal] at hst
      obtain ⟨hmiss, hsmall⟩ := hst
      by_contra hcon
      apply hmiss
      have hlt : n + (if r.arena.alloc_ptr_ % 8 = 0 then 0 else 8 - r.arena.alloc_ptr_ % 8)
          < sizeT := by
        have := (slop_facts r.arena.alloc_ptr_).1
        simp only [sizeT]
        omega
      rw [Nat.mod_eq_of_lt hlt]
      split_ifs <;> omega
  · obtain ⟨p, s', h⟩ := hret
    rcases exec_cases heap r.arena c p s' h with
      ⟨_, _, _, _, _, _, hsb, _⟩ | ⟨hsb, _⟩ | ⟨_, _, hp, hptr, hrm, hbl, _⟩
    · rw [hsb] at hst; exact absurd hst (by decide)
    · rw [hsb] at hst; exact absurd hst (by decide)
    · exact ⟨s', hp ▸ h, hbl, hptr, hrm⟩

/-- Worked instance: after `Allocate(600)` and `Allocate(2900)` on a fresh
arena 596 bytes remain, and `AllocateAligned(600)` abandons them. -/
theorem arena_abandoned_block_waste_witness :
    (596 : Nat) < kBlockSize / 4 :=
  (arena_abandoned_block_waste sampleHeap (fun k => by simp only [sampleHeap]; omega)
    [Call.Allocate 600, Call.Allocate 2900]
    { arena :=
        { alloc_ptr_ := 69036, alloc_bytes_remaining_ := 596,
          blocks_ := [{ start := 65536, size := 4096 }],
          memory_usage_ := 4104 }
      served := [{ ptr := 65536, bytes := 600 }, { ptr := 66136, bytes := 2900 }]
      current := some { start := 65536, size := 4096 } }
    (by decide) (Call.AllocateAligned 600) (by decide)).1

/-- C17 fails on the code: `needed = bytes + slop` is a `size_t` addition
and wraps. After `Allocate(1)` on a fresh arena the cursor is 65537 with 4095
bytes remaining and a slop of 7; `AllocateAligned(2 ^ 64 - 1)` computes
`needed = 6`, is served from the current block and returns 65544 although
`n + slop = 2 ^ 64 + 6` exceeds the 4095 bytes remaining, so the `n` bytes
returned run past the end of the block at 69632. -/
theorem arena_allocateAligned_padding_wraps :
    runCalls sampleHeap Run.init [Call.Allocate 1]
        = some
          { arena :=
              { alloc_ptr_ := 65537, alloc_bytes_remaining_ := 4095,
                blocks_ := [{ start := 65536, size := 4096 }], memory_usage_ := 4104 }
            served := [{ ptr := 65536, bytes := 1 }]
            current := some { start := 65536, size := 4096 } } ∧
      2 ^ 64 - 1 < sizeT ∧
      Arena.AllocateAligned sampleHeap
          { alloc_ptr_ := 65537, alloc_bytes_remaining_ := 4095,
            blocks_ := [{ start := 65536, size := 4096 }], memory_usage_ := 4104 }
          (2 ^ 64 - 1)
        = Outcome.returned 65544
          { alloc_ptr_ := 65543, alloc_bytes_remaining_ := 4089,
            blocks_ := [{ start := 65536, size := 4096 }], memory_usage_ := 4104 } ∧
      (2 ^ 64 - 1 + 7) % sizeT = 6 ∧
      ¬ (2 ^ 64 - 1 + 7 ≤ 4095) ∧
      ¬ (65544 + (2 ^ 64 - 1) ≤ 65536 + 4096) := by
  decide

/-- C18: in a state whose `alloc_ptr_` is a multiple of 8 (the null cursor of
a fresh arena included) and for `n > 0`, `AllocateAligned(n)` computes the
same pointer and the same resulting state as `Allocate(n)`, and it returns
them, its final assertion passing, whenever the request is served from the
current block or the block obtained from the system is 8-aligned; hence
always over an allocator that returns 8-aligned blocks. -/
theorem arena_allocateAligned_agrees_when_aligned (heap : Heap) (s : Arena) (n : Nat)
    (hal : s.alloc_ptr_ % 8 = 0) (hn : 0 < n) (hlt : n < sizeT) :
    Arena.Allocate heap s n
        = Outcome.returned (Arena.AllocateAlignedBody heap s n).1
          (Arena.AllocateAlignedBody heap s n).2 ∧
      (n ≤ s.alloc_bytes_remaining_ ∨ heap s.blocks_.length % 8 = 0 →
        Arena.AllocateAligned heap s n = Arena.Allocate heap s n) ∧
      (HeapAligned heap → Arena.AllocateAligned heap s n = Arena.Allocate heap s n) ∧
      Arena.new.alloc_ptr_ % 8 = 0 := by
  have hbody : Arena.AllocateAlignedBody heap s n
      = if n ≤ s.alloc_bytes_remaining_ then
          (s.alloc_ptr_,
            { s with
              alloc_ptr_ := s.alloc_ptr_ + n
              alloc_bytes_remaining_ := s.alloc_bytes_remaining_ - n })
        else Arena.AllocateFallback heap s n := by
    simp only [Arena.AllocateAlignedBody, and_align_eq_mod, hal, if_true, Nat.add_zero,
      Nat.mod_eq_of_lt hlt]
  have hallocate : Arena.Allocate heap s n
      = Outcome.returned (Arena.AllocateAlignedBody heap s n).1
        (Arena.AllocateAlignedBody heap s n).2 := by
    rw [hbody]
    simp only [Arena.Allocate, gt_iff_lt, hn, if_true]
    split_ifs <;> rfl
  have hagree : n ≤ s.alloc_bytes_remaining_ ∨ heap s.blocks_.length % 8 = 0 →
      Arena.AllocateAligned heap s n = Arena.Allocate heap s n := by
    intro hor
    have hres : (Arena.AllocateAlignedBody heap s n).1 % 8 = 0 := by
      rw [hbody]
      split_ifs with hfit
      · exact hal
      · rw [allocateFallback_result]
        rcases hor with h1 | h2
        · exact absurd h1 hfit
        · exact h2
    rw [hallocate]
    simp only [Arena.AllocateAligned, and_align_eq_mod, hres, if_true]
  exact ⟨hallocate, hagree, fun hheap => hagree (Or.inr (hheap _)), by decide⟩

/-- Worked instance: on a fresh arena a request of 16 bytes is served by
`AllocateFallback` for both methods, with the same result. -/
theorem arena_allocateAligned_agrees_when_aligned_witness :
    Arena.AllocateAligned sampleHeap Arena.new 16 = Arena.Allocate sampleHeap Arena.new 16 :=
  (arena_allocateAligned_agrees_when_aligned sampleHeap Arena.new 16 (by decide) (by decide)
    (by decide)).2.1 (Or.inr (by decide))
